import Mathlib

/-!
Verification of the stickyvault note-storage and sync subsystem.

The TypeScript sources are embedded shallowly:

* JS strings are Lean `String`s; where character-level processing matters the
  definitions work on `List Char` (`String.data`).
* JS `Map`/object-literal maps are association lists with JS insertion-order
  semantics (`mGet`, `mSet`, `mDel`).
* Timestamp strings are kept abstract; `new Date(s).getTime()` is modelled by
  an explicit parameter `dateMs : String → Int`, and `Date.now()` by an
  explicit `now : Int` (milliseconds).
* gray-matter documents (YAML frontmatter + body) are modelled at the data
  level by `Codec.CoreDoc`: a record of the optional frontmatter fields the
  codec reads plus the body text.  `matter.stringify` followed by `matter`
  is the identity on this representation (the extra newline `stringify`
  appends to the body is absorbed by the `content.trim()` the parser applies).
* MD5 is modelled by an explicit hash parameter `hashFn`.
* Only ASCII whitespace (space, tab, CR, LF, VT, FF) is modelled for JS
  `\s` and `String.prototype.trim`.
-/

/-- Whitespace test for the JS `\s` class and `trim`, restricted to ASCII. -/
def jsWS (c : Char) : Bool :=
  c = ' ' || c = '\t' || c = '\n' || c = '\r' || c = '\x0b' || c = '\x0c'

/-- JS `String.prototype.trim` on character lists. -/
def jsTrimL (l : List Char) : List Char :=
  ((l.dropWhile jsWS).reverse.dropWhile jsWS).reverse

/-- JS `String.prototype.trim`. -/
def jsTrim (s : String) : String :=
  String.mk (jsTrimL s.data)

/-- Split a list at the first occurrence of the pattern `pat`; returns the
part before and the part after the occurrence, or `none` if `pat` does not
occur.  Models a lazy `([\s\S]*?)pat` regex group. -/
def splitFirst (pat : List Char) : List Char → Option (List Char × List Char)
  | [] => if pat = [] then some ([], []) else none
  | c :: cs =>
    if pat.isPrefixOf (c :: cs) then some ([], (c :: cs).drop pat.length)
    else match splitFirst pat cs with
      | some (a, b) => some (c :: a, b)
      | none => none

/-- Whether `pat` occurs as a contiguous sublist. -/
def containsSub (pat : List Char) (l : List Char) : Bool :=
  (splitFirst pat l).isSome

/-- JS `String.prototype.replace` with a string pattern: replaces only the
first occurrence (here with the empty string, the only use in the source). -/
def replaceFirst (s pat : String) : String :=
  match splitFirst pat.data s.data with
  | some (a, b) => String.mk (a ++ b)
  | none => s

/-- Lookup in a JS-style keyed collection (first, and under the uniqueness
invariant only, binding for the key). -/
def mGet {V : Type} : List (String × V) → String → Option V
  | [], _ => none
  | (k, v) :: t, i => if k = i then some v else mGet t i

/-- JS `Map.prototype.set` / object spread update: replaces the value in
place when the key exists, appends otherwise. -/
def mSet {V : Type} : List (String × V) → String → V → List (String × V)
  | [], k, v => [(k, v)]
  | (k0, v0) :: t, k, v =>
    if k0 = k then (k0, v) :: t else (k0, v0) :: mSet t k v

/-- JS `Map.prototype.delete` / rest-destructuring a key away. -/
def mDel {V : Type} : List (String × V) → String → List (String × V)
  | [], _ => []
  | (k0, v0) :: t, k => if k0 = k then mDel t k else (k0, v0) :: mDel t k

/-- Iteration order of a JS `Set` built by insertion: keep the first
occurrence of each element. -/
def dedupFirstGo (seen : List String) : List String → List String
  | [] => []
  | x :: t =>
    if x ∈ seen then dedupFirstGo seen t else x :: dedupFirstGo (x :: seen) t

def dedupFirst (l : List String) : List String :=
  dedupFirstGo [] l

/-- Insert into a list sorted by the JS default string comparator. -/
def insSorted (x : String) : List String → List String
  | [] => [x]
  | y :: t => if x ≤ y then x :: y :: t else y :: insSorted x t

/-- JS `Array.prototype.sort()` on strings (lexicographic comparator). -/
def jsSort : List String → List String
  | [] => []
  | x :: t => insSorted x (jsSort t)

namespace Codec

/-- Reminder attached to a note (core `types.ts`). -/
structure Reminder where
  id : String
  time : String
  message : Option String
  acknowledged : Bool
  deriving DecidableEq, Repr

/-- Note record of the core library (core `types.ts`). -/
structure CNote where
  id : String
  title : String
  color : String
  content : String
  created : String
  updated : String
  pinned : Bool
  encrypted : Bool
  tags : List String
  reminders : List Reminder
  deriving DecidableEq, Repr

/-- Reminder object as found in parsed YAML frontmatter: every field may be
absent. -/
structure RemData where
  id : Option String
  time : Option String
  message : Option String
  acknowledged : Option Bool
  deriving DecidableEq, Repr

/-- Data-level model of a gray-matter document: the optional frontmatter
fields the codec reads, plus the body text. -/
structure CoreDoc where
  id : Option String
  title : Option String
  color : Option String
  created : Option String
  updated : Option String
  pinned : Option Bool
  encrypted : Option Bool
  tags : Option (List String)
  reminders : Option (List RemData)
  body : String
  deriving DecidableEq, Repr

/-- JS `data.x || d` for a string-valued field: the empty string is falsy. -/
def jsOrS : Option String → String → String
  | some s, d => if s = "" then d else s
  | none, d => d

/-- `parseReminders` from core `parser.ts`: non-arrays become `[]`; each
entry gets defaults for falsy fields (`uuid` models `uuidv4()`, `nowStr`
models `new Date().toISOString()`). -/
def parseReminders (uuid nowStr : String) : Option (List RemData) → List Reminder
  | none => []
  | some l => l.map (fun r =>
      { id := jsOrS r.id uuid
      , time := jsOrS r.time nowStr
      , message := match r.message with
          | some m => if m = "" then none else some m
          | none => none
      , acknowledged := r.acknowledged.getD false })

/-- `parseNote` from core `parser.ts` on a gray-matter document. -/
def parseNoteDoc (doc : CoreDoc) (nowStr uuid : String) : CNote :=
  { id := jsOrS doc.id uuid
  , title := jsOrS doc.title "Untitled Note"
  , color := jsOrS doc.color "#FFE066"
  , pinned := doc.pinned.getD false
  , created := jsOrS doc.created nowStr
  , updated := jsOrS doc.updated nowStr
  , reminders := parseReminders uuid nowStr doc.reminders
  , tags := doc.tags.getD []
  , encrypted := doc.encrypted.getD false
  , content := jsTrim doc.body }

/-- `serializeNote` from core `parser.ts`: all metadata fields are written to
the frontmatter, with `updated` stamped to the serialization time `now`. -/
def serializeNoteDoc (n : CNote) (now : String) : CoreDoc :=
  { id := some n.id
  , title := some n.title
  , color := some n.color
  , created := some n.created
  , updated := some now
  , pinned := some n.pinned
  , encrypted := some n.encrypted
  , tags := some n.tags
  , reminders := some (n.reminders.map (fun r =>
      { id := some r.id, time := some r.time
      , message := r.message, acknowledged := some r.acknowledged }))
  , body := n.content }

/-- Validity of a note for the round-trip property: no field is JS-falsy in a
way that would make `parseNote` substitute a default (nonempty `id`, `title`,
`color`, `created`; reminders with nonempty `id`/`time` and no empty-string
`message`), and the body carries no leading/trailing whitespace that
`content.trim()` would strip. -/
def ValidNote (n : CNote) : Prop :=
  n.id ≠ "" ∧ n.title ≠ "" ∧ n.color ≠ "" ∧ n.created ≠ "" ∧
  jsTrim n.content = n.content ∧
  ∀ r ∈ n.reminders, r.id ≠ "" ∧ r.time ≠ "" ∧ r.message ≠ some ""

instance (n : CNote) : Decidable (ValidNote n) := by
  unfold ValidNote; infer_instance

end Codec

/-- Split a character list at every occurrence of `sep`, JS
`String.prototype.split` with a single-character separator (keeps empty
pieces, result is never empty). -/
def splitCharL (sep : Char) : List Char → List (List Char)
  | [] => [[]]
  | c :: t =>
    match splitCharL sep t with
    | [] => [[]]
    | l :: ls => if c = sep then [] :: l :: ls else (c :: l) :: ls

/-- JS `Array.prototype.join` with a single-character separator. -/
def joinChar (sep : Char) : List (List Char) → List Char
  | [] => []
  | [x] => x
  | x :: y :: t => x ++ sep :: joinChar sep (y :: t)

/-- Span on whitespace: the maximal `\s*` run and the remainder. -/
def spanWS : List Char → List Char × List Char
  | [] => ([], [])
  | c :: t =>
    if jsWS c then
      let p := spanWS t
      (c :: p.1, p.2)
    else ([], c :: t)

/-- Characters matched by the JS regex `.` (anything but a line
terminator). -/
def isDotChar (c : Char) : Bool :=
  !(c = '\n' || c = '\r' || c.val = 0x2028 || c.val = 0x2029)

namespace DSvc

/-- Note record of the widget service (`DropboxService`). -/
structure DNote where
  id : String
  title : String
  content : String
  created : String
  updated : String
  color : String
  pinned : Bool
  tags : List String
  widgetId : Option String
  deriving DecidableEq, Repr

/-- Frontmatter value as produced by the hand-rolled `key: value` parser:
a string, a `true`/`false` literal, or a bracketed string list. -/
inductive JSV where
  | str (s : String)
  | bool (b : Bool)
  | arr (l : List String)
  deriving DecidableEq, Repr

/-- JS truthiness of a frontmatter value (arrays are always truthy). -/
def jsvTruthy : JSV → Bool
  | .str s => s ≠ ""
  | .bool b => b
  | .arr _ => true

/-- JS string coercion of a frontmatter value, applied where the service
stores a value into a string-typed note field. -/
def jsvToStr : JSV → String
  | .str s => s
  | .bool b => if b then "true" else "false"
  | .arr l => String.mk (joinChar ',' (l.map String.data))

/-- JS `data.k || fallback` on a frontmatter value. -/
def jsvOr (v : Option JSV) (d : String) : String :=
  match v with
  | some x => if jsvTruthy x then jsvToStr x else d
  | none => d

/-- Strip one leading and one trailing quote character, the
`replace(/^['"]|['"]$/g, '')` of the service. -/
def stripQuotesL (l : List Char) : List Char :=
  let l1 := match l with
    | c :: t => if c = '\x27' || c = '"' then t else l
    | [] => l
  match l1.reverse with
  | c :: t => if c = '\x27' || c = '"' then t.reverse else l1
  | [] => l1

/-- Parse one frontmatter value: bracketed lists, boolean literals,
otherwise a plain string. -/
def parseValL (v : List Char) : JSV :=
  if v.head? = some '[' && v.getLast? = some ']' then
    JSV.arr (((splitCharL ',' ((v.drop 1).dropLast)).map
      (fun x => String.mk (stripQuotesL (jsTrimL x)))))
  else if v = "true".data then JSV.bool true
  else if v = "false".data then JSV.bool false
  else JSV.str (String.mk v)

/-- Parse one frontmatter line into a key/value pair; lines without a colon
are skipped. -/
def lineKV (line : List Char) : Option (String × JSV) :=
  match splitCharL ':' line with
  | [] => none
  | [_] => none
  | k :: rest => some (String.mk (jsTrimL k), parseValL (jsTrimL (joinChar ':' rest)))

/-- Accumulate the frontmatter lines into the `data` object (later
assignments to the same key overwrite). -/
def fmDataL (fm : List Char) : List (String × JSV) :=
  (splitCharL '\n' fm).foldl (fun d line =>
    match lineKV line with
    | some kv => mSet d kv.1 kv.2
    | none => d) []

/-- Opening marker of the metadata block, `---` followed by a newline. -/
def fmOpen : List Char := "---\n".data

/-- Closing separator of the metadata block. -/
def fmSep : List Char := "\n---\n".data

/-- Split the raw text per the `^---\n([\s\S]*?)\n---\n([\s\S]*)$` regex:
frontmatter and body, or `none` when there is no metadata block. -/
def matchFrontL (cs : List Char) : Option (List Char × List Char) :=
  if fmOpen.isPrefixOf cs then splitFirst fmSep (cs.drop 4) else none

/-- Structural recognizability: the text opens with a metadata block. -/
def hasMetadataBlock (s : String) : Bool :=
  fmOpen.isPrefixOf s.data && containsSub fmSep (s.data.drop 4)

/-- The frontmatter data of a text, empty when there is no metadata block. -/
def fmDataOf (s : String) : List (String × JSV) :=
  match matchFrontL s.data with
  | some fb => fmDataL fb.1
  | none => []

/-- `DropboxService.parseNote`: `none` exactly when the metadata block is
missing, otherwise a note with per-field defaults (`nowStr` models
`new Date().toISOString()`). -/
def parseNoteS (content fname nowStr : String) : Option DNote :=
  match matchFrontL content.data with
  | none => none
  | some fb =>
    let data := fmDataL fb.1
    some
      { id := jsvOr (mGet data "id") (replaceFirst fname ".md")
      , title := jsvOr (mGet data "title") "Untitled"
      , content := String.mk (jsTrimL fb.2)
      , created := jsvOr (mGet data "created") nowStr
      , updated := jsvOr (mGet data "updated") nowStr
      , pinned := mGet data "pinned" == some (JSV.bool true)
      , color := jsvOr (mGet data "color") "#FFE066"
      , tags := match mGet data "tags" with
          | some (.arr l) => l
          | _ => []
      , widgetId := none }

end DSvc

namespace CR

/-- Literal `'s conflicted copy ` of the main Dropbox conflict pattern. -/
def conflictLit : List Char := "'s conflicted copy ".data

/-- Literal `(conflicted copy ` of the alternative conflict pattern. -/
def altLit : List Char := "(conflicted copy ".data

/-- Literal `.md` suffix. -/
def mdLit : List Char := ".md".data

/-- Case-insensitive character comparison (the `/i` regex flag). -/
def ciEq (a b : Char) : Bool := a.toLower = b.toLower

/-- Consume a literal case-insensitively, returning the rest. -/
def ciPref (pat l : List Char) : Option (List Char) :=
  match pat, l with
  | [], r => some r
  | _ :: _, [] => none
  | p :: ps, c :: cs => if ciEq p c then ciPref ps cs else none

/-- Consume a `\d{4}-\d{2}-\d{2}` date, returning the rest. -/
def dateChk : List Char → Option (List Char)
  | a :: b :: c :: d :: e :: f :: g :: h :: i :: j :: rest =>
    if [a, b, c, d].all Char.isDigit && e = '-' && [f, g].all Char.isDigit &&
        h = '-' && [i, j].all Char.isDigit then some rest else none
  | _ => none

/-- Tail of the main pattern after the second group:
`'s conflicted copy \d{4}-\d{2}-\d{2}\)\.md$` (33 characters). -/
def tailMainOk (l : List Char) : Bool :=
  match ciPref conflictLit l with
  | some r1 =>
    match dateChk r1 with
    | some (')' :: r3) =>
      match ciPref mdLit r3 with
      | some [] => true
      | _ => false
    | _ => false
  | none => false

/-- Whether a suffix matches `\s+\((.+)'s conflicted copy date\)\.md$`. -/
def restMain (cs : List Char) : Bool :=
  let p := spanWS cs
  if p.1.isEmpty then false
  else
    match p.2 with
    | '(' :: t =>
      let k := t.length
      if k < 34 then false
      else
        (t.take (k - 33)).all isDotChar && tailMainOk (t.drop (k - 33))
    | _ => false

/-- Whether a suffix matches
`\s+\(conflicted copy \d{4}-\d{2}-\d{2}\s+\d+\)\.md$`. -/
def restAlt (cs : List Char) : Bool :=
  let p := spanWS cs
  if p.1.isEmpty then false
  else
    match ciPref altLit p.2 with
    | some r1 =>
      match dateChk r1 with
      | some r2 =>
        let q := spanWS r2
        if q.1.isEmpty then false
        else
          let ds := q.2.takeWhile Char.isDigit
          if ds.isEmpty then false
          else
            match q.2.drop ds.length with
            | ')' :: r5 =>
              match ciPref mdLit r5 with
              | some [] => true
              | _ => false
            | _ => false
      | none => false
    | none => false

/-- First capture group of the main conflict pattern: the longest prefix
(of `.`-matchable characters) whose remainder matches the rest of the
pattern, per greedy `(.+)` backtracking. -/
def matchMain (cs : List Char) : Option (List Char) :=
  (((List.range cs.length).reverse).filter (fun L => 0 < L)).findSome? (fun L =>
    let g1 := cs.take L
    if g1.all isDotChar && restMain (cs.drop L) then some g1 else none)

/-- First capture group of the alternative conflict pattern. -/
def matchAlt (cs : List Char) : Option (List Char) :=
  (((List.range cs.length).reverse).filter (fun L => 0 < L)).findSome? (fun L =>
    let g1 := cs.take L
    if g1.all isDotChar && restAlt (cs.drop L) then some g1 else none)

/-- The `/^[a-f0-9-]{36}$/i` UUID-shape validation. -/
def uuidLike (l : List Char) : Bool :=
  l.length = 36 && l.all (fun c => c.isDigit || c = '-' ||
    ('a' ≤ c.toLower && c.toLower ≤ 'f'))

/-- `isConflictFile` from `conflict-resolver.ts`. -/
def isConflictFile (f : String) : Bool :=
  (matchMain f.data).isSome || (matchAlt f.data).isSome

/-- `getOriginalIdFromConflict` from `conflict-resolver.ts`: the first
capture group of whichever pattern matches, validated against the UUID
shape. -/
def getOriginalIdFromConflict (f : String) : Option String :=
  match matchMain f.data with
  | some g1 => if uuidLike g1 then some (String.mk g1) else none
  | none =>
    match matchAlt f.data with
    | some g1 => if uuidLike g1 then some (String.mk g1) else none
    | none => none

end CR

namespace Codec

/-- Tail of a checkbox line after the marker: `\]\s+.*$`. -/
def cbTail (rest : List Char) : Bool :=
  match rest with
  | c :: r =>
    c = ']' && (let p := spanWS r; !p.1.isEmpty && p.2.all isDotChar)
  | [] => false

/-- Match a line against `^(\s*[-*]\s+\[)([ xX])(\]\s+.*)$`, returning the
first group, the marker character, and the third group. -/
def matchCB (l : List Char) : Option (List Char × Char × List Char) :=
  let p1 := spanWS l
  match p1.2 with
  | b :: r2 =>
    if b = '-' || b = '*' then
      let p2 := spanWS r2
      if p2.1.isEmpty then none
      else
        match p2.2 with
        | c :: m :: rest =>
          if c = '[' && (m = ' ' || m = 'x' || m = 'X') && cbTail rest then
            some (p1.1 ++ b :: p2.1 ++ ['['], m, rest)
          else none
        | _ => none
    else none
  | [] => none

/-- Toggle the checked marker of one line, when it is a checkbox line. -/
def toggleLine (l : List Char) : List Char :=
  match matchCB l with
  | some (pre, m, suf) => pre ++ (if m.toLower = 'x' then ' ' else 'x') :: suf
  | none => l

/-- `toggleCheckbox` from core `parser.ts` (content as a character list,
line index as the JS number). -/
def toggleCheckbox (cs : List Char) (i : Int) : List Char :=
  let lines := splitCharL '\n' cs
  if i < 0 ∨ (lines.length : Int) ≤ i then cs
  else joinChar '\n' (lines.set i.toNat (toggleLine (lines.getD i.toNat [])))

/-- The checkbox marker of line `i` of `cs`, if that line is a checkbox
line (`none` for out-of-range indices and non-checkbox lines). -/
def markerAt (cs : List Char) (i : Int) : Option Char :=
  let lines := splitCharL '\n' cs
  if i < 0 ∨ (lines.length : Int) ≤ i then none
  else (matchCB (lines.getD i.toNat [])).map (fun x => x.2.1)

end Codec

namespace IStore

/-- Per-note projection stored in the index (`types.ts`). -/
structure IndexEntry where
  order : Int
  pinned : Bool
  color : String
  title : String
  updated : String
  deriving DecidableEq, Repr

/-- The vault index document (`types.ts`). -/
structure VaultIndex where
  version : Nat
  lastSync : String
  notes : List (String × IndexEntry)
  deletedNotes : List String
  tags : List String
  deriving DecidableEq, Repr

/-- `createEmptyIndex` from `index-manager.ts`. -/
def createEmptyIndex (nowStr : String) : VaultIndex :=
  { version := 1, lastSync := nowStr, notes := [], deletedNotes := [], tags := [] }

/-- `migrateIndex`: spread the old index over fresh defaults and restamp the
version; every populated field of the old index survives. -/
def migrateIndex (old : VaultIndex) : VaultIndex :=
  { old with version := 1 }

/-- `Math.max(-1, ...orders)` over the existing entries. -/
def maxOrder (ix : VaultIndex) : Int :=
  (ix.notes.map (fun p => p.2.order)).foldl max (-1)

/-- `upsertNoteInIndex` from `index-manager.ts`. -/
def upsertNoteInIndex (ix : VaultIndex) (n : Codec.CNote) : VaultIndex :=
  let entry : IndexEntry :=
    { order := match mGet ix.notes n.id with
        | some e => e.order
        | none => maxOrder ix + 1
    , pinned := n.pinned, color := n.color, title := n.title
    , updated := n.updated }
  let notes2 := mSet ix.notes n.id entry
  let tags2 := jsSort (dedupFirst (ix.tags ++ n.tags))
  { ix with notes := notes2, tags := tags2 }

/-- `removeNoteFromIndex` from `index-manager.ts`. -/
def removeNoteFromIndex (ix : VaultIndex) (noteId : String) (trackDeletion : Bool) :
    VaultIndex :=
  let dn :=
    if trackDeletion then dedupFirst (ix.deletedNotes ++ [noteId])
    else ix.deletedNotes
  { ix with notes := mDel ix.notes noteId, deletedNotes := dn }

def reorderGo (m : List (String × IndexEntry)) : List String → Int →
    List (String × IndexEntry)
  | [], _ => m
  | i :: t, k =>
    let m2 := match mGet m i with
      | some e => mSet m i { e with order := k }
      | none => m
    reorderGo m2 t (k + 1)

/-- `reorderNotes` from `index-manager.ts`. -/
def reorderNotes (ix : VaultIndex) (noteIds : List String) : VaultIndex :=
  { ix with notes := reorderGo ix.notes noteIds 0 }

/-- `updateNoteColor` from `index-manager.ts`. -/
def updateNoteColor (ix : VaultIndex) (noteId color : String) : VaultIndex :=
  match mGet ix.notes noteId with
  | none => ix
  | some e => { ix with notes := mSet ix.notes noteId { e with color := color } }

/-- `toggleNotePinned` from `index-manager.ts`. -/
def toggleNotePinned (ix : VaultIndex) (noteId : String) : VaultIndex :=
  match mGet ix.notes noteId with
  | none => ix
  | some e => { ix with notes := mSet ix.notes noteId { e with pinned := !e.pinned } }

end IStore

namespace Vault

/-- The partial-field update object accepted by `VaultManager.updateNote`.
The TypeScript type omits `id` and `created`, but the runtime object can
still carry them; the implementation overrides them explicitly, which is
what claim C6 is about, so they are modelled here. -/
structure NoteUpdates where
  id : Option String
  title : Option String
  color : Option String
  content : Option String
  created : Option String
  updated : Option String
  pinned : Option Bool
  encrypted : Option Bool
  tags : Option (List String)
  reminders : Option (List Codec.Reminder)
  deriving DecidableEq, Repr

/-- The update object with no fields supplied. -/
def emptyUpdates : NoteUpdates :=
  { id := none, title := none, color := none, content := none, created := none
  , updated := none, pinned := none, encrypted := none, tags := none
  , reminders := none }

/-- `{ ...existing, ...updates, id: noteId, created: existing.created,
updated: now }` from `VaultManager.updateNote`. -/
def mergeNote (ex : Codec.CNote) (u : NoteUpdates) (noteId now : String) :
    Codec.CNote :=
  { id := noteId
  , title := u.title.getD ex.title
  , color := u.color.getD ex.color
  , content := u.content.getD ex.content
  , created := ex.created
  , updated := now
  , pinned := u.pinned.getD ex.pinned
  , encrypted := u.encrypted.getD ex.encrypted
  , tags := u.tags.getD ex.tags
  , reminders := u.reminders.getD ex.reminders }

/-- The vault state touched by `updateNote`: the in-memory note cache and
the loaded index (file writes and event emission carry no extra state). -/
structure VMState where
  notes : List (String × Codec.CNote)
  index : Option IStore.VaultIndex
  deriving DecidableEq, Repr

/-- `VaultManager.updateNote`: `none` (and no state change) for an unknown
id, otherwise merge, stamp `updated`, write back to the cache and upsert
the index. -/
def updateNote (st : VMState) (noteId : String) (u : NoteUpdates) (now : String) :
    Option Codec.CNote × VMState :=
  match mGet st.notes noteId with
  | none => (none, st)
  | some ex =>
    let m := mergeNote ex u noteId now
    (some m,
      { notes := mSet st.notes noteId m
      , index := st.index.map (fun ix => IStore.upsertNoteInIndex ix m) })

end Vault

/-- JS `String.prototype.endsWith`, on the character lists. -/
def strEndsWith (s suf : String) : Bool :=
  suf.data.isSuffixOf s.data

namespace DSvc

/-- A remote folder entry as consumed by `syncWithRemote`: its tag, name,
`client_modified` stamp, and the text a download of it yields (`none` when
the download response is not ok). -/
structure REntry where
  isFile : Bool
  name : String
  clientModified : String
  body : Option String
  deriving DecidableEq, Repr

/-- Ambient parameters of one sync pass: timestamp parsing (`new
Date(s).getTime()`), the current time, the current ISO string, and the
per-note upload response status. -/
structure SEnv where
  dateMs : String → Int
  now : Int
  nowStr : String
  uploadOk : String → Bool

/-- A remote entry that counts as a note file. -/
def isMdFile (e : REntry) : Bool := e.isFile && strEndsWith e.name ".md"

/-- `entry.name.replace('.md', '')`. -/
def entryId (e : REntry) : String := replaceFirst e.name ".md"

/-- State threaded through the download loop. -/
structure SyncAcc where
  map : List (String × DNote)
  downloads : List String
  synced : Nat
  deriving Repr

/-- `if (localNote?.widgetId) parsed.widgetId = localNote.widgetId`. -/
def widgetTransfer (localNote : Option DNote) (p : DNote) : DNote :=
  match localNote with
  | some ln =>
    match ln.widgetId with
    | some w => if w ≠ "" then { p with widgetId := some w } else p
    | none => p
  | none => p

/-- One iteration of the download loop of `syncWithRemote` (step 3). -/
def dlStep (env : SEnv) (acc : SyncAcc) (e : REntry) : SyncAcc :=
  if isMdFile e then
    let nid := entryId e
    let localNote := mGet acc.map nid
    let shouldDl :=
      match localNote with
      | none => true
      | some ln => decide (env.dateMs e.clientModified > env.dateMs ln.updated + 2000)
    if shouldDl then
      match e.body with
      | some text =>
        match parseNoteS text e.name env.nowStr with
        | some p =>
          let p2 := widgetTransfer localNote p
          { map := mSet acc.map p2.id p2
          , downloads := acc.downloads ++ [e.name]
          , synced := acc.synced + 1 }
        | none => { acc with downloads := acc.downloads ++ [e.name] }
      | none => { acc with downloads := acc.downloads ++ [e.name] }
    else acc
  else acc

/-- The remote id set of step 4. -/
def remoteIds (entries : List REntry) : List String :=
  (entries.filter isMdFile).map entryId

/-- One iteration of the deletion-reconciliation loop (step 5). -/
def delStep (env : SEnv) (rids : List String) (acc : List (String × DNote) × Nat)
    (n : DNote) : List (String × DNote) × Nat :=
  if n.id ∈ rids then acc
  else if env.dateMs n.created < env.now - 30000 then (mDel acc.1 n.id, acc.2 + 1)
  else acc

/-- The upload decision of step 6 for one note. -/
def upDecide (env : SEnv) (entries : List REntry) (n : DNote) : Bool :=
  match entries.find? (fun e => e.name = n.id ++ ".md") with
  | none => decide (env.dateMs n.created ≥ env.now - 30000)
  | some e => decide (env.dateMs n.updated > env.dateMs e.clientModified + 2000)

/-- Result of a pass: the merged note list, the names fetched by download
calls, the ids sent in upload calls, and the synced counter. -/
structure SyncOut where
  notes : List DNote
  downloads : List String
  uploads : List String
  synced : Nat
  deriving Repr

/-- `new Map(localNotes.map(n => [n.id, n]))`. -/
def initialMap (localNotes : List DNote) : List (String × DNote) :=
  localNotes.foldl (fun m n => mSet m n.id n) []

/-- The download loop (step 3) over all remote entries. -/
def downloadPhase (env : SEnv) (localNotes : List DNote) (entries : List REntry) :
    SyncAcc :=
  entries.foldl (dlStep env)
    { map := initialMap localNotes, downloads := [], synced := 0 }

/-- The deletion-reconciliation loop (step 5) over the original local notes. -/
def deletePhase (env : SEnv) (localNotes : List DNote) (entries : List REntry) :
    List (String × DNote) × Nat :=
  localNotes.foldl (delStep env (remoteIds entries))
    ((downloadPhase env localNotes entries).map,
     (downloadPhase env localNotes entries).synced)

/-- `DropboxService.syncWithRemote`: build the notes map, run the download
loop, the deletion-reconciliation loop, and the upload loop. -/
def syncWithRemote (env : SEnv) (localNotes : List DNote) (entries : List REntry) :
    SyncOut :=
  let vals := (deletePhase env localNotes entries).1.map (fun p => p.2)
  let ups := vals.filter (upDecide env entries)
  { notes := vals
  , downloads := (downloadPhase env localNotes entries).downloads
  , uploads := ups.map (fun n => n.id)
  , synced := (deletePhase env localNotes entries).2 +
      (ups.filter (fun n => env.uploadOk n.id)).length }

/-- The id has no remote counterpart: no entry is named after it, it is not
in the computed remote id set, and no remote object's content parses to a
note claiming it. -/
def absentRemotely (env : SEnv) (entries : List REntry) (id : String) : Prop :=
  (∀ e ∈ entries, e.name ≠ id ++ ".md") ∧
  id ∉ remoteIds entries ∧
  (∀ e ∈ entries, ∀ t p, e.body = some t →
    parseNoteS t e.name env.nowStr = some p → p.id ≠ id)

end DSvc

namespace El

/-- Electron upload environment: the stored access token, whether
`ensureValidToken` succeeds, whether the upload response is ok, and the
serialization timestamp of the pass. -/
structure UpEnv where
  accessToken : String
  tokenValid : Bool
  uploadOk : Bool
  now : String
  deriving DecidableEq, Repr

/-- The electron store slice the sync manager owns: the per-note hash
cache. -/
structure UpState where
  noteHashes : List (String × String)
  deriving DecidableEq, Repr

/-- `DropboxSyncManager.getContentHash`: hash of the serialized note, with
MD5 modelled by the `hashFn` parameter. -/
def getContentHash (hashFn : Codec.CoreDoc → String) (note : Codec.CNote)
    (now : String) : String :=
  hashFn (Codec.serializeNoteDoc note now)

/-- `DropboxSyncManager.uploadNote`: returns the success flag, the updated
hash store, and the list of note ids for which an upload POST was made. -/
def uploadNote (hashFn : Codec.CoreDoc → String) (env : UpEnv) (st : UpState)
    (note : Codec.CNote) : Bool × UpState × List String :=
  if env.accessToken = "" then (false, st, [])
  else
    let currentHash := getContentHash hashFn note env.now
    if mGet st.noteHashes note.id = some currentHash then (true, st, [])
    else if env.tokenValid then
      if env.uploadOk then
        (true, { noteHashes := mSet st.noteHashes note.id currentHash }, [note.id])
      else (false, st, [note.id])
    else (false, st, [])

/-- Accumulator of `syncAllNotes`. -/
structure SyncAllAcc where
  uploaded : Nat
  skipped : Nat
  errors : Nat
  st : UpState
  calls : List String
  deriving DecidableEq, Repr

/-- One iteration of the `syncAllNotes` loop. -/
def syncStep (hashFn : Codec.CoreDoc → String) (env : UpEnv) (acc : SyncAllAcc)
    (note : Codec.CNote) : SyncAllAcc :=
  if mGet acc.st.noteHashes note.id = some (getContentHash hashFn note env.now) then
    { acc with skipped := acc.skipped + 1 }
  else
    let r := uploadNote hashFn env acc.st note
    if r.1 then
      { acc with uploaded := acc.uploaded + 1, st := r.2.1, calls := acc.calls ++ r.2.2 }
    else
      { acc with errors := acc.errors + 1, st := r.2.1, calls := acc.calls ++ r.2.2 }

/-- The zeroed result record `syncAllNotes` starts from. -/
def syncInit (st : UpState) : SyncAllAcc :=
  { uploaded := 0, skipped := 0, errors := 0, st := st, calls := [] }

/-- `DropboxSyncManager.syncAllNotes`. -/
def syncAllNotes (hashFn : Codec.CoreDoc → String) (env : UpEnv) (st : UpState)
    (notes : List Codec.CNote) : SyncAllAcc :=
  if env.accessToken = "" then syncInit st
  else notes.foldl (syncStep hashFn env) (syncInit st)

/-- A local note file: its gray-matter document and its ctime. -/
structure FData where
  doc : Codec.CoreDoc
  ctime : Int
  deriving DecidableEq, Repr

/-- The local vault directory, keyed by filename. -/
abbrev FS := List (String × FData)

/-- A Dropbox folder entry as consumed by the electron download pass; `body`
is the downloaded document (`none` when the response carries no content). -/
structure EEntry where
  isFile : Bool
  name : String
  clientModified : String
  body : Option Codec.CoreDoc
  deriving DecidableEq, Repr

/-- Ambient parameters of the electron pass. -/
structure EEnv where
  dateMs : String → Int
  now : Int
  nowStr : String
  uuid : String

def eIsMd (e : EEntry) : Bool := e.isFile && strEndsWith e.name ".md"

def eEntryId (e : EEntry) : String := replaceFirst e.name ".md"

/-- The download decision of `downloadFromDropbox`: skip when the
timestamps are within 2 seconds or the local file (by its parsed `updated`
stamp) is newer; a missing or unreadable local file downloads. -/
def shouldDownloadE (env : EEnv) (fs : FS) (e : EEntry) : Bool :=
  match mGet fs e.name with
  | none => true
  | some f =>
    let localNote := Codec.parseNoteDoc f.doc env.nowStr env.uuid
    let ld := env.dateMs localNote.updated
    let rd := env.dateMs e.clientModified
    if (rd - ld).natAbs < 2000 then false
    else if ld > rd then false
    else true

/-- One iteration of the electron download loop. -/
def dlStepE (env : EEnv) (acc : FS × List String × Nat) (e : EEntry) :
    FS × List String × Nat :=
  if eIsMd e then
    if shouldDownloadE env acc.1 e then
      match e.body with
      | some doc =>
        (mSet acc.1 e.name { doc := doc, ctime := env.now },
         acc.2.1 ++ [e.name], acc.2.2 + 1)
      | none => (acc.1, acc.2.1 ++ [e.name], acc.2.2)
    else acc
  else acc

def eRemoteIds (entries : List EEntry) : List String :=
  (entries.filter eIsMd).map eEntryId

/-- One iteration of the electron cloud-deletion detection loop: a local
`.md` file absent from the remote id set is unlinked when its ctime is more
than 30 seconds old. -/
def delStepE (env : EEnv) (rids : List String) (acc : FS × Nat) (name : String) :
    FS × Nat :=
  if strEndsWith name ".md" then
    if replaceFirst name ".md" ∈ rids then acc
    else
      match mGet acc.1 name with
      | some f =>
        if env.now - f.ctime > 30000 then (mDel acc.1 name, acc.2 + 1) else acc
      | none => acc
  else acc

/-- The electron download loop over all remote entries. -/
def dlPhaseE (env : EEnv) (fs : FS) (entries : List EEntry) :
    FS × List String × Nat :=
  entries.foldl (dlStepE env) (fs, [], 0)

/-- The electron cloud-deletion sweep over the directory listing taken
after the download loop. -/
def delPhaseE (env : EEnv) (fs : FS) (entries : List EEntry) : FS × Nat :=
  ((dlPhaseE env fs entries).1.map (fun p => p.1)).foldl
    (delStepE env (eRemoteIds entries)) ((dlPhaseE env fs entries).1, 0)

/-- `DropboxSyncManager.downloadFromDropbox`: the download loop followed by
the deletion-detection sweep; returns the file system, the download trace,
and the downloaded/deleted counters. -/
def downloadFromDropbox (env : EEnv) (fs : FS) (entries : List EEntry) :
    FS × List String × Nat × Nat :=
  ((delPhaseE env fs entries).1, (dlPhaseE env fs entries).2.1,
   (dlPhaseE env fs entries).2.2, (delPhaseE env fs entries).2)

/-- `DropboxSyncManager.uploadToDropbox`: uploads every local `.md` file,
unconditionally. -/
def uploadBatch (fs : FS) : List String :=
  (fs.map (fun p => p.1)).filter (fun nm => strEndsWith nm ".md")

/-- `DropboxSyncManager.sync`: download phase then upload phase; returns
the final file system, the download trace, and the upload trace. -/
def elSync (env : EEnv) (fs : FS) (entries : List EEntry) :
    FS × List String × List String :=
  let d := downloadFromDropbox env fs entries
  (d.1, d.2.1, uploadBatch d.1)

end El

theorem map_eq_self_of_forall {α : Type} (f : α → α) :
    ∀ (l : List α), (∀ a ∈ l, f a = a) → l.map f = l := by
  intro l
  induction l with
  | nil => intro _; rfl
  | cons x t ih =>
    intro h
    simp only [List.map_cons]
    rw [h x (List.mem_cons_self x t), ih (fun a ha => h a (List.mem_cons_of_mem x ha))]

/-- C4. For every valid note `n`, parsing the serialization of `n` (performed
at time `snow`) reproduces every field of `n` except `updated`, which becomes
the serialization time `snow`.  The parse-time defaults `pnow`/`uuid` are
irrelevant. -/
theorem parse_serialize_roundtrip (n : Codec.CNote) (snow pnow uuid : String)
    (hv : Codec.ValidNote n) (hs : snow ≠ "") :
    Codec.parseNoteDoc (Codec.serializeNoteDoc n snow) pnow uuid =
      { n with updated := snow } := by
  obtain ⟨hid, htitle, hcolor, hcreated, hcontent, hrem⟩ := hv
  have hmap : ∀ (l : List Codec.Reminder),
      (∀ r ∈ l, r.id ≠ "" ∧ r.time ≠ "" ∧ r.message ≠ some "") →
      Codec.parseReminders uuid pnow
        (some (l.map (fun r => Codec.RemData.mk (some r.id) (some r.time)
          r.message (some r.acknowledged)))) = l := by
    intro l hl
    simp only [Codec.parseReminders, List.map_map]
    refine map_eq_self_of_forall _ _ ?_
    intro r hr
    obtain ⟨h1, h2, h3⟩ := hl r hr
    cases r with
    | mk rid rtime rmsg rack =>
      simp only [Function.comp, Codec.jsOrS, Option.getD_some]
      rw [if_neg h1, if_neg h2]
      cases rmsg with
      | none => rfl
      | some m =>
        have hm : m ≠ "" := by
          intro h
          exact h3 (by rw [h])
        simp only [if_neg hm]
  cases n with
  | mk id title color content created updated pinned encrypted tags reminders =>
    simp only [Codec.ValidNote] at hrem
    simp only [Codec.parseNoteDoc, Codec.serializeNoteDoc, Codec.jsOrS,
      Option.getD_some]
    rw [if_neg hid, if_neg htitle, if_neg hcolor, if_neg hcreated, if_neg hs]
    rw [hmap reminders hrem]
    simp [Codec.CNote.mk.injEq, hcontent]

/-- Concrete instance of C4: a sample valid note round-trips. -/
theorem parse_serialize_roundtrip_witness :
    Codec.ValidNote
      { id := "id1", title := "A", color := "#FFE066", content := "hello"
      , created := "2024-01-01T00:00:00.000Z", updated := "2024-01-02T00:00:00.000Z"
      , pinned := false, encrypted := false, tags := []
      , reminders := [] } ∧
    Codec.parseNoteDoc
      (Codec.serializeNoteDoc
        { id := "id1", title := "A", color := "#FFE066", content := "hello"
        , created := "2024-01-01T00:00:00.000Z", updated := "2024-01-02T00:00:00.000Z"
        , pinned := false, encrypted := false, tags := []
        , reminders := [] } "T")
      "P" "U" =
      { id := "id1", title := "A", color := "#FFE066", content := "hello"
      , created := "2024-01-01T00:00:00.000Z", updated := "T"
      , pinned := false, encrypted := false, tags := []
      , reminders := [] } := by
  constructor
  · decide
  · exact parse_serialize_roundtrip _ "T" "P" "U" (by decide) (by decide)

theorem mGet_mSet_self {V : Type} (m : List (String × V)) (k : String) (v : V) :
    mGet (mSet m k v) k = some v := by
  induction m with
  | nil => simp [mSet, mGet]
  | cons p t ih =>
    cases p with
    | mk k0 v0 =>
      by_cases h : k0 = k
      · subst h
        simp [mSet, mGet]
      · simp [mSet, mGet, h, ih]

theorem mGet_mSet_ne {V : Type} (m : List (String × V)) (k i : String) (v : V)
    (h : k ≠ i) : mGet (mSet m k v) i = mGet m i := by
  induction m with
  | nil => simp [mSet, mGet, h]
  | cons p t ih =>
    cases p with
    | mk k0 v0 =>
      by_cases h0 : k0 = k
      · subst h0
        simp [mSet, mGet, h]
      · simp [mSet, mGet, h0, ih]

theorem mGet_mDel_self {V : Type} (m : List (String × V)) (k : String) :
    mGet (mDel m k) k = none := by
  induction m with
  | nil => simp [mDel, mGet]
  | cons p t ih =>
    cases p with
    | mk k0 v0 =>
      by_cases h0 : k0 = k
      · simp [mDel, h0, ih]
      · simp [mDel, mGet, h0, ih]

theorem mGet_mDel_ne {V : Type} (m : List (String × V)) (k i : String)
    (h : k ≠ i) : mGet (mDel m k) i = mGet m i := by
  induction m with
  | nil => simp [mDel, mGet]
  | cons p t ih =>
    cases p with
    | mk k0 v0 =>
      by_cases h0 : k0 = k
      · subst h0
        have hi : ¬ k0 = i := h
        simp [mDel, mGet, hi, ih]
      · simp [mDel, mGet, h0, ih]

theorem mem_insSorted (x y : String) (l : List String) :
    y ∈ insSorted x l ↔ y = x ∨ y ∈ l := by
  induction l with
  | nil => simp [insSorted]
  | cons z t ih =>
    by_cases h : x ≤ z
    · simp only [insSorted, if_pos h, List.mem_cons]
    · simp only [insSorted, if_neg h, List.mem_cons, ih]
      tauto

theorem mem_jsSort (x : String) (l : List String) : x ∈ jsSort l ↔ x ∈ l := by
  induction l with
  | nil => simp [jsSort]
  | cons y t ih =>
    simp [jsSort, mem_insSorted, ih]

theorem mem_dedupFirstGo (x : String) (seen l : List String) :
    x ∈ dedupFirstGo seen l ↔ x ∈ l ∧ x ∉ seen := by
  induction l generalizing seen with
  | nil => simp [dedupFirstGo]
  | cons y t ih =>
    by_cases h : y ∈ seen
    · simp only [dedupFirstGo, if_pos h, ih]
      constructor
      · tauto
      · rintro ⟨hx, hn⟩
        rcases List.mem_cons.mp hx with h1 | h1
        · exact absurd (h1 ▸ h) hn
        · exact ⟨h1, hn⟩
    · simp only [dedupFirstGo, if_neg h]
      by_cases hxy : x = y
      · subst hxy
        simp [h]
      · simp only [List.mem_cons, hxy, false_or]
        rw [ih]
        simp [List.mem_cons, hxy]

theorem mem_dedupFirst (x : String) (l : List String) :
    x ∈ dedupFirst l ↔ x ∈ l := by
  simp [dedupFirst, mem_dedupFirstGo]

theorem dedupFirstGo_append_mem (seen l : List String) (x : String)
    (h : x ∈ l ∨ x ∈ seen) :
    dedupFirstGo seen (l ++ [x]) = dedupFirstGo seen l := by
  induction l generalizing seen with
  | nil =>
    rcases h with h | h
    · simp at h
    · simp [dedupFirstGo, h]
  | cons y t ih =>
    by_cases hy : y ∈ seen
    · simp only [List.cons_append, dedupFirstGo, if_pos hy]
      apply ih
      rcases h with h | h
      · rcases List.mem_cons.mp h with h1 | h1
        · exact Or.inr (h1 ▸ hy)
        · exact Or.inl h1
      · exact Or.inr h
    · simp only [List.cons_append, dedupFirstGo, if_neg hy]
      have hx : x ∈ t ∨ x ∈ y :: seen := by
        rcases h with h | h
        · rcases List.mem_cons.mp h with h1 | h1
          · exact Or.inr (by simp [h1])
          · exact Or.inl h1
        · exact Or.inr (by simp [h])
      have := ih (y :: seen) hx
      simpa using this

theorem dedupFirstGo_nodup (seen l : List String) (hn : l.Nodup)
    (hd : ∀ x ∈ l, x ∉ seen) : dedupFirstGo seen l = l := by
  induction l generalizing seen with
  | nil => rfl
  | cons y t ih =>
    have hy : y ∉ seen := hd y (List.mem_cons_self y t)
    simp only [dedupFirstGo, if_neg hy]
    congr 1
    apply ih
    · exact (List.nodup_cons.mp hn).2
    · intro x hx
      intro hmem
      rcases List.mem_cons.mp hmem with h1 | h1
      · exact absurd (h1 ▸ hx) (List.nodup_cons.mp hn).1
      · exact hd x (List.mem_cons_of_mem y hx) h1

theorem dedupFirst_append_self (l : List String) (x : String) (hx : x ∈ l)
    (hn : l.Nodup) : dedupFirst (l ++ [x]) = l := by
  unfold dedupFirst
  rw [dedupFirstGo_append_mem [] l x (Or.inl hx)]
  exact dedupFirstGo_nodup [] l hn (by simp)

/-- C7. `upsertNoteInIndex` gives a new note the order `max existing + 1`,
overwrites an existing note's `pinned`/`color`/`title`/`updated` while
preserving its `order`, and the resulting tag set is the union of the old
tag set and the note's tags. -/
theorem upsert_order_and_tags (ix : IStore.VaultIndex) (n : Codec.CNote) :
    (mGet ix.notes n.id = none →
      mGet (IStore.upsertNoteInIndex ix n).notes n.id =
        some { order := IStore.maxOrder ix + 1, pinned := n.pinned
             , color := n.color, title := n.title, updated := n.updated }) ∧
    (∀ e, mGet ix.notes n.id = some e →
      mGet (IStore.upsertNoteInIndex ix n).notes n.id =
        some { order := e.order, pinned := n.pinned, color := n.color
             , title := n.title, updated := n.updated }) ∧
    (∀ t, t ∈ (IStore.upsertNoteInIndex ix n).tags ↔ t ∈ ix.tags ∨ t ∈ n.tags) := by
  refine ⟨?_, ?_, ?_⟩
  · intro h
    simp [IStore.upsertNoteInIndex, h, mGet_mSet_self]
  · intro e h
    simp [IStore.upsertNoteInIndex, h, mGet_mSet_self]
  · intro t
    simp [IStore.upsertNoteInIndex, mem_jsSort, mem_dedupFirst]

/-- Concrete instance of C7 on a two-entry index. -/
theorem upsert_order_and_tags_witness :
    mGet
      (IStore.upsertNoteInIndex
        { version := 1, lastSync := "T"
        , notes := [("a", { order := 0, pinned := false, color := "c", title := "t", updated := "u" })]
        , deletedNotes := [], tags := ["old"] }
        { id := "b", title := "B", color := "#FFE066", content := ""
        , created := "T0", updated := "T1", pinned := false, encrypted := false
        , tags := ["new"], reminders := [] }).notes "b" =
      some { order := 1, pinned := false, color := "#FFE066", title := "B", updated := "T1" } ∧
    ("old" ∈ (IStore.upsertNoteInIndex
        { version := 1, lastSync := "T"
        , notes := [("a", { order := 0, pinned := false, color := "c", title := "t", updated := "u" })]
        , deletedNotes := [], tags := ["old"] }
        { id := "b", title := "B", color := "#FFE066", content := ""
        , created := "T0", updated := "T1", pinned := false, encrypted := false
        , tags := ["new"], reminders := [] }).tags ↔ True) := by
  constructor
  · have h := (upsert_order_and_tags
      { version := 1, lastSync := "T"
      , notes := [("a", { order := 0, pinned := false, color := "c", title := "t", updated := "u" })]
      , deletedNotes := [], tags := ["old"] }
      { id := "b", title := "B", color := "#FFE066", content := ""
      , created := "T0", updated := "T1", pinned := false, encrypted := false
      , tags := ["new"], reminders := [] }).1 (by decide)
    simpa using h
  · simp only [iff_true]
    exact ((upsert_order_and_tags _ _).2.2 "old").mpr (Or.inl (by decide))

/-- C8. `removeNoteFromIndex` deletes the entry; with `trackDeletion` it
appends the id to `deletedNotes` as a set (idempotently on deduplicated
lists), and none of the index operations ever removes an id from
`deletedNotes`. -/
theorem remove_tombstone_append_only (ix : IStore.VaultIndex) (noteId : String)
    (track : Bool) :
    (mGet (IStore.removeNoteFromIndex ix noteId track).notes noteId = none) ∧
    (track = true → ∀ x,
      x ∈ (IStore.removeNoteFromIndex ix noteId track).deletedNotes ↔
        (x ∈ ix.deletedNotes ∨ x = noteId)) ∧
    (track = true → noteId ∈ ix.deletedNotes → ix.deletedNotes.Nodup →
      (IStore.removeNoteFromIndex ix noteId track).deletedNotes = ix.deletedNotes) ∧
    (track = false →
      (IStore.removeNoteFromIndex ix noteId track).deletedNotes = ix.deletedNotes) ∧
    (∀ n, ix.deletedNotes ⊆ (IStore.upsertNoteInIndex ix n).deletedNotes) ∧
    (∀ i2 t2, ix.deletedNotes ⊆ (IStore.removeNoteFromIndex ix i2 t2).deletedNotes) ∧
    (∀ ids, ix.deletedNotes ⊆ (IStore.reorderNotes ix ids).deletedNotes) ∧
    (∀ i2 c, ix.deletedNotes ⊆ (IStore.updateNoteColor ix i2 c).deletedNotes) ∧
    (∀ i2, ix.deletedNotes ⊆ (IStore.toggleNotePinned ix i2).deletedNotes) ∧
    (ix.deletedNotes ⊆ (IStore.migrateIndex ix).deletedNotes) := by
  refine ⟨?_, ?_, ?_, ?_, ?_, ?_, ?_, ?_, ?_, ?_⟩
  · simp [IStore.removeNoteFromIndex, mGet_mDel_self]
  · intro h x
    simp [IStore.removeNoteFromIndex, h, mem_dedupFirst]
  · intro h hmem hnd
    simp [IStore.removeNoteFromIndex, h, dedupFirst_append_self _ _ hmem hnd]
  · intro h
    simp [IStore.removeNoteFromIndex, h]
  · intro n
    simp [IStore.upsertNoteInIndex, List.Subset.refl]
  · intro i2 t2 x hx
    cases t2 with
    | false => simpa [IStore.removeNoteFromIndex] using hx
    | true =>
      have hm : x ∈ ix.deletedNotes ++ [i2] := List.mem_append_left _ hx
      simpa [IStore.removeNoteFromIndex, mem_dedupFirst] using hm
  · intro ids
    simp [IStore.reorderNotes, List.Subset.refl]
  · intro i2 c x hx
    unfold IStore.updateNoteColor
    cases mGet ix.notes i2 <;> simpa
  · intro i2 x hx
    unfold IStore.toggleNotePinned
    cases mGet ix.notes i2 <;> simpa
  · simp [IStore.migrateIndex, List.Subset.refl]

/-- Concrete instance of C8: removing an already-tracked id keeps the
tombstone list unchanged. -/
theorem remove_tombstone_append_only_witness :
    (IStore.removeNoteFromIndex
      { version := 1, lastSync := "T", notes := [], deletedNotes := ["a"], tags := [] }
      "a" true).deletedNotes = ["a"] := by
  exact (remove_tombstone_append_only
    { version := 1, lastSync := "T", notes := [], deletedNotes := ["a"], tags := [] }
    "a" true).2.2.1 rfl (by decide) (by decide)

/-- C6. `updateNote` returns `none` with no state change for an unknown id;
otherwise the note it returns keeps the id and the existing `created`
timestamp even if the update object supplies different values for them. -/
theorem updateNote_immutable_fields (st : Vault.VMState) (noteId : String)
    (u : Vault.NoteUpdates) (now : String) :
    (mGet st.notes noteId = none → Vault.updateNote st noteId u now = (none, st)) ∧
    (∀ ex, mGet st.notes noteId = some ex →
      (Vault.updateNote st noteId u now).1 =
        some (Vault.mergeNote ex u noteId now) ∧
      (Vault.mergeNote ex u noteId now).id = noteId ∧
      (Vault.mergeNote ex u noteId now).created = ex.created ∧
      (Vault.mergeNote ex u noteId now).updated = now) := by
  constructor
  · intro h
    simp [Vault.updateNote, h]
  · intro ex h
    refine ⟨?_, rfl, rfl, rfl⟩
    simp [Vault.updateNote, h]

/-- Concrete instance of C6: an update supplying different `id` and
`created` values does not override them. -/
theorem updateNote_immutable_fields_witness :
    ((Vault.updateNote
      { notes := [("a", { id := "a", title := "t", color := "c", content := ""
                        , created := "T0", updated := "T1", pinned := false
                        , encrypted := false, tags := [], reminders := [] })]
      , index := none }
      "a"
      { Vault.emptyUpdates with id := some "evil", created := some "T9" }
      "T2").1).map (fun r => (r.id, r.created)) = some ("a", "T0") := by
  have h := (updateNote_immutable_fields
    { notes := [("a", { id := "a", title := "t", color := "c", content := ""
                      , created := "T0", updated := "T1", pinned := false
                      , encrypted := false, tags := [], reminders := [] })]
    , index := none }
    "a"
    { Vault.emptyUpdates with id := some "evil", created := some "T9" }
    "T2").2
    { id := "a", title := "t", color := "c", content := ""
    , created := "T0", updated := "T1", pinned := false
    , encrypted := false, tags := [], reminders := [] } (by decide)
  rw [h.1]
  simp only [Option.map_some']
  simp [h.2.1, h.2.2.1]

def cexDoc5 : Codec.CoreDoc :=
  { id := none, title := none, color := none, created := none, updated := none
  , pinned := none, encrypted := none, tags := none, reminders := none
  , body := "hello" }

/-- C5 counterexample. The two cited parsers disagree on a blob with no
metadata block: `DropboxService.parseNote` returns no note, but the core
`parseNote` — whose gray-matter call on such an input yields an empty
frontmatter object with the raw text as body — returns a fully-defaulted
note. The core parser thus never returns "no note", against the claim's
"exactly when" reading for it. -/
theorem core_parse_never_no_note_cex :
    DSvc.parseNoteS "hello" "g.md" "Z" = none ∧
    Codec.parseNoteDoc cexDoc5 "Z" "u" =
      { id := "u", title := "Untitled Note", color := "#FFE066"
      , content := "hello", created := "Z", updated := "Z", pinned := false
      , encrypted := false, tags := [], reminders := [] } := by
  decide

/-- C5 (amended). `DropboxService.parseNote` returns no note exactly when
the input has no metadata block, and substitutes defaults for missing or
malformed fields when a block is present. The core `parseNote` also
substitutes per-field defaults for absent frontmatter fields, but it is
total on gray-matter documents and so never returns "no note". -/
theorem parseNote_soft_defaults :
    (∀ s f nowStr : String,
    ((DSvc.parseNoteS s f nowStr = none) ↔ DSvc.hasMetadataBlock s = false) ∧
    (∀ n, DSvc.parseNoteS s f nowStr = some n →
      (mGet (DSvc.fmDataOf s) "id" = none → n.id = replaceFirst f ".md") ∧
      (mGet (DSvc.fmDataOf s) "title" = none → n.title = "Untitled") ∧
      (mGet (DSvc.fmDataOf s) "created" = none → n.created = nowStr) ∧
      (mGet (DSvc.fmDataOf s) "updated" = none → n.updated = nowStr) ∧
      (mGet (DSvc.fmDataOf s) "color" = none → n.color = "#FFE066") ∧
      (mGet (DSvc.fmDataOf s) "pinned" ≠ some (DSvc.JSV.bool true) →
        n.pinned = false) ∧
      (mGet (DSvc.fmDataOf s) "tags" = none → n.tags = []) ∧
      (∀ v, mGet (DSvc.fmDataOf s) "tags" = some v →
        (∀ l, v ≠ DSvc.JSV.arr l) → n.tags = []))) ∧
    (∀ (doc : Codec.CoreDoc) (nowStr uuid : String),
      (doc.id = none → (Codec.parseNoteDoc doc nowStr uuid).id = uuid) ∧
      (doc.title = none →
        (Codec.parseNoteDoc doc nowStr uuid).title = "Untitled Note") ∧
      (doc.color = none →
        (Codec.parseNoteDoc doc nowStr uuid).color = "#FFE066") ∧
      (doc.created = none →
        (Codec.parseNoteDoc doc nowStr uuid).created = nowStr) ∧
      (doc.updated = none →
        (Codec.parseNoteDoc doc nowStr uuid).updated = nowStr) ∧
      (doc.pinned = none → (Codec.parseNoteDoc doc nowStr uuid).pinned = false) ∧
      (doc.encrypted = none →
        (Codec.parseNoteDoc doc nowStr uuid).encrypted = false) ∧
      (doc.tags = none → (Codec.parseNoteDoc doc nowStr uuid).tags = []) ∧
      (doc.reminders = none →
        (Codec.parseNoteDoc doc nowStr uuid).reminders = [])) := by
  refine ⟨?_, ?_⟩
  case refine_2 =>
    intro doc nowStr uuid
    refine ⟨?_, ?_, ?_, ?_, ?_, ?_, ?_, ?_, ?_⟩ <;> intro h <;>
      simp [Codec.parseNoteDoc, Codec.jsOrS, Codec.parseReminders, h]
  intro s f nowStr
  constructor
  · unfold DSvc.parseNoteS DSvc.hasMetadataBlock containsSub DSvc.matchFrontL
    by_cases hp : DSvc.fmOpen.isPrefixOf s.data
    · simp only [if_pos hp, hp, Bool.true_and]
      cases hs : splitFirst DSvc.fmSep (s.data.drop 4) with
      | none => simp [hs]
      | some fb => simp [hs]
    · simp [hp]
  · intro n hn
    unfold DSvc.parseNoteS at hn
    cases hm : DSvc.matchFrontL s.data with
    | none =>
      rw [hm] at hn
      exact absurd hn (by simp)
    | some fb =>
      rw [hm] at hn
      have hdata : DSvc.fmDataOf s = DSvc.fmDataL fb.1 := by
        unfold DSvc.fmDataOf
        rw [hm]
      rw [Option.some.injEq] at hn
      subst hn
      rw [hdata]
      refine ⟨?_, ?_, ?_, ?_, ?_, ?_, ?_, ?_⟩
      · intro h
        simp [DSvc.jsvOr, h]
      · intro h
        simp [DSvc.jsvOr, h]
      · intro h
        simp [DSvc.jsvOr, h]
      · intro h
        simp [DSvc.jsvOr, h]
      · intro h
        simp [DSvc.jsvOr, h]
      · intro h
        simp only [beq_eq_false_iff_ne]
        exact h
      · intro h
        simp [h]
      · intro v hv hnoarr
        rw [hv]
        cases v with
        | str a => rfl
        | bool b => rfl
        | arr l => exact absurd rfl (hnoarr l)

/-- Concrete instances of C5: a blob with no metadata block parses to no
note in the widget service, a block missing most fields gets the documented
defaults, and the core parser defaults the absent id and title of a
field-less gray-matter document. -/
theorem parseNote_soft_defaults_witness :
    DSvc.parseNoteS "hello" "f.md" "Z" = none ∧
    (DSvc.parseNoteS "---\nid: a\n---\nhi" "f.md" "Z").map
      (fun n => (n.title, n.pinned, n.tags)) = some ("Untitled", false, []) ∧
    (Codec.parseNoteDoc cexDoc5 "Z" "u").id = "u" ∧
    (Codec.parseNoteDoc cexDoc5 "Z" "u").title = "Untitled Note" := by
  refine ⟨?_, ?_, ?_, ?_⟩
  · exact (parseNote_soft_defaults.1 "hello" "f.md" "Z").1.mpr (by decide)
  case refine_3 => exact (parseNote_soft_defaults.2 cexDoc5 "Z" "u").1 (by decide)
  case refine_4 =>
    exact (parseNote_soft_defaults.2 cexDoc5 "Z" "u").2.1 (by decide)
  · have h := (parseNote_soft_defaults.1 "---\nid: a\n---\nhi" "f.md" "Z").2
      { id := "a", title := "Untitled", content := "hi", created := "Z"
      , updated := "Z", color := "#FFE066", pinned := false, tags := []
      , widgetId := none } (by decide)
    have hp : DSvc.parseNoteS "---\nid: a\n---\nhi" "f.md" "Z" =
        some { id := "a", title := "Untitled", content := "hi", created := "Z"
             , updated := "Z", color := "#FFE066", pinned := false, tags := []
             , widgetId := none } := by decide
    rw [hp]
    have ht := h.2.1 (by decide)
    simp only [Option.map_some', ht]

/-- C9 counterexample. On the spec's own scenario filename the code returns
no id at all: the stripped stem `id1` fails the 36-character UUID-shape
validation, so `extractOriginalId` does not return `id1`. -/
theorem extractOriginalId_id1_cex :
    CR.getOriginalIdFromConflict "id1 (Bob's conflicted copy 2024-01-01).md" = none := by
  decide

/-- C9 (amended). `getOriginalIdFromConflict` strips the conflict-marker
suffix and returns the remainder exactly when the remainder has the
36-character hex/dash UUID shape, and returns none otherwise; in particular
it returns none on the `id1 (...)` scenario filename (whose stem is not
UUID-shaped) and returns the stem for a UUID-named conflict file. -/
theorem extractOriginalId_spec :
    (∀ f s, CR.getOriginalIdFromConflict f = some s →
      CR.isConflictFile f = true ∧ CR.uuidLike s.data = true) ∧
    CR.getOriginalIdFromConflict
      "aaaaaaaa-bbbb-cccc-dddd-eeeeffff0000 (Bob's conflicted copy 2024-01-01).md" =
      some "aaaaaaaa-bbbb-cccc-dddd-eeeeffff0000" ∧
    CR.getOriginalIdFromConflict "id1 (Bob's conflicted copy 2024-01-01).md" = none := by
  refine ⟨?_, by decide, by decide⟩
  intro f s h
  unfold CR.getOriginalIdFromConflict at h
  cases hm : CR.matchMain f.data with
  | some g1 =>
    rw [hm] at h
    cases hu : CR.uuidLike g1 with
    | true =>
      simp only [hu, if_true, Option.some.injEq] at h
      refine ⟨by simp [CR.isConflictFile, hm], ?_⟩
      rw [← h]
      exact hu
    | false =>
      simp [hu] at h
  | none =>
    rw [hm] at h
    cases ha : CR.matchAlt f.data with
    | some g1 =>
      rw [ha] at h
      cases hu : CR.uuidLike g1 with
      | true =>
        simp only [hu, if_true, Option.some.injEq] at h
        refine ⟨by simp [CR.isConflictFile, ha], ?_⟩
        rw [← h]
        exact hu
      | false =>
        simp [hu] at h
    | none =>
      rw [ha] at h
      simp at h

/-- Concrete instance of C9's validation direction, via the theorem. -/
theorem extractOriginalId_spec_witness :
    CR.isConflictFile
      "aaaaaaaa-bbbb-cccc-dddd-eeeeffff0000 (Bob's conflicted copy 2024-01-01).md" = true ∧
    CR.uuidLike "aaaaaaaa-bbbb-cccc-dddd-eeeeffff0000".data = true :=
  extractOriginalId_spec.1 _ _ extractOriginalId_spec.2.1

theorem splitCharL_ne_nil (sep : Char) (l : List Char) : splitCharL sep l ≠ [] := by
  cases l with
  | nil => simp [splitCharL]
  | cons c t =>
    unfold splitCharL
    cases h : splitCharL sep t with
    | nil => simp
    | cons a as => by_cases hc : c = sep <;> simp [hc]

theorem joinChar_splitCharL (sep : Char) (l : List Char) :
    joinChar sep (splitCharL sep l) = l := by
  induction l with
  | nil => rfl
  | cons c t ih =>
    show joinChar sep (splitCharL sep (c :: t)) = c :: t
    unfold splitCharL
    cases h : splitCharL sep t with
    | nil => exact absurd h (splitCharL_ne_nil sep t)
    | cons a as =>
      rw [h] at ih
      by_cases hc : c = sep
      · subst hc
        simp only [if_pos rfl, joinChar, List.nil_append]
        rw [ih]
      · simp only [if_neg hc]
        cases as with
        | nil =>
          simp only [joinChar] at ih ⊢
          rw [ih]
        | cons a2 as2 =>
          simp only [joinChar] at ih ⊢
          rw [List.cons_append, ih]

theorem splitCharL_no_sep (sep : Char) (l : List Char) :
    ∀ x ∈ splitCharL sep l, sep ∉ x := by
  induction l with
  | nil =>
    intro x hx
    simp [splitCharL] at hx
    subst hx
    simp
  | cons c t ih =>
    intro x hx
    unfold splitCharL at hx
    cases h : splitCharL sep t with
    | nil => exact absurd h (splitCharL_ne_nil sep t)
    | cons a as =>
      rw [h] at hx ih
      dsimp only at hx
      by_cases hc : c = sep
      · rw [if_pos hc] at hx
        rcases List.mem_cons.mp hx with rfl | hx2
        · simp
        · exact ih x hx2
      · rw [if_neg hc] at hx
        rcases List.mem_cons.mp hx with rfl | hx2
        · intro hmem
          rcases List.mem_cons.mp hmem with h1 | h1
          · exact hc h1.symm
          · exact ih a (List.mem_cons_self a as) h1
        · exact ih x (List.mem_cons_of_mem a hx2)

theorem splitCharL_of_not_mem (sep : Char) (l : List Char) (h : sep ∉ l) :
    splitCharL sep l = [l] := by
  induction l with
  | nil => rfl
  | cons c t ih =>
    have hc : ¬ c = sep := by
      intro e
      exact h (by simp [e])
    have ht : sep ∉ t := by
      intro m
      exact h (List.mem_cons_of_mem c m)
    unfold splitCharL
    rw [ih ht]
    simp [hc]

theorem splitCharL_append_sep (sep : Char) (x r : List Char) (hx : sep ∉ x) :
    splitCharL sep (x ++ sep :: r) = x :: splitCharL sep r := by
  induction x with
  | nil =>
    simp only [List.nil_append, splitCharL]
    cases h : splitCharL sep r with
    | nil => exact absurd h (splitCharL_ne_nil sep r)
    | cons a as => simp
  | cons c t ih =>
    have hc : ¬ c = sep := by
      intro e
      exact hx (by simp [e])
    have ht : sep ∉ t := by
      intro m
      exact hx (List.mem_cons_of_mem c m)
    simp only [List.cons_append, splitCharL, List.append_eq]
    rw [ih ht]
    simp [hc]

theorem splitCharL_joinChar (sep : Char) (L : List (List Char)) (hne : L ≠ [])
    (hns : ∀ x ∈ L, sep ∉ x) : splitCharL sep (joinChar sep L) = L := by
  induction L with
  | nil => exact absurd rfl hne
  | cons x t ih =>
    cases t with
    | nil =>
      simp only [joinChar]
      exact splitCharL_of_not_mem sep x (hns x (by simp))
    | cons y t2 =>
      simp only [joinChar]
      rw [splitCharL_append_sep sep x _ (hns x (by simp))]
      rw [ih (by simp) (fun z hz => hns z (List.mem_cons_of_mem x hz))]

theorem spanWS_sound (l : List Char) :
    l = (spanWS l).1 ++ (spanWS l).2 ∧ ∀ c ∈ (spanWS l).1, jsWS c = true := by
  induction l with
  | nil => simp [spanWS]
  | cons c t ih =>
    by_cases hc : jsWS c
    · simp only [spanWS, if_pos hc]
      constructor
      · rw [List.cons_append, ← ih.1]
      · intro d hd
        rcases List.mem_cons.mp hd with rfl | hd2
        · exact hc
        · exact ih.2 d hd2
    · simp only [spanWS, if_neg hc]
      exact ⟨by simp, by simp⟩

theorem spanWS_append (w r : List Char) (hw : ∀ c ∈ w, jsWS c = true)
    (hr : ∀ c, r.head? = some c → jsWS c = false) :
    spanWS (w ++ r) = (w, r) := by
  induction w with
  | nil =>
    cases r with
    | nil => rfl
    | cons c t =>
      have hcf := hr c rfl
      simp [spanWS, hcf]
  | cons c t ih =>
    have hc : jsWS c = true := hw c (by simp)
    have hrec := ih (fun d hd => hw d (List.mem_cons_of_mem c hd))
    simp only [List.cons_append, spanWS, hc, if_true, List.append_eq, hrec]

theorem matchCB_sound {l pre : List Char} {m : Char} {suf : List Char}
    (h : Codec.matchCB l = some (pre, m, suf)) :
    ∃ ws1 b ws2, pre = ws1 ++ b :: ws2 ++ ['['] ∧
      l = ws1 ++ b :: ws2 ++ '[' :: m :: suf ∧
      (∀ c ∈ ws1, jsWS c = true) ∧ (b = '-' ∨ b = '*') ∧
      (∀ c ∈ ws2, jsWS c = true) ∧ ws2 ≠ [] ∧
      (m = ' ' ∨ m = 'x' ∨ m = 'X') ∧ Codec.cbTail suf = true := by
  have hl0 := (spanWS_sound l).1
  have hws1 := (spanWS_sound l).2
  unfold Codec.matchCB at h
  dsimp only at h
  rcases hsp : spanWS l with ⟨ws1, r1⟩
  rw [hsp] at h hl0 hws1
  dsimp only at h hl0 hws1
  cases r1 with
  | nil => simp at h
  | cons b r2 =>
    dsimp only at h
    by_cases hb : (b = '-' || b = '*') = true
    · rw [if_pos hb] at h
      have hr2 := (spanWS_sound r2).1
      have hws2 := (spanWS_sound r2).2
      rcases hsp2 : spanWS r2 with ⟨ws2, r3⟩
      rw [hsp2] at h hr2 hws2
      dsimp only at h hr2 hws2
      by_cases he : ws2.isEmpty = true
      · rw [if_pos he] at h
        simp at h
      · rw [if_neg he] at h
        cases r3 with
        | nil => simp at h
        | cons c r4 =>
          cases r4 with
          | nil => simp at h
          | cons m2 rest =>
            dsimp only at h
            by_cases hcnd : (c = '[' && (m2 = ' ' || m2 = 'x' || m2 = 'X') &&
                Codec.cbTail rest) = true
            · rw [if_pos hcnd] at h
              simp only [Option.some.injEq, Prod.mk.injEq] at h
              obtain ⟨hpre, hm, hsuf⟩ := h
              simp only [Bool.and_eq_true, decide_eq_true_eq, Bool.or_eq_true] at hcnd
              obtain ⟨⟨hcc, hmk⟩, htail⟩ := hcnd
              subst hcc
              subst hm
              subst hsuf
              refine ⟨ws1, b, ws2, hpre.symm, ?_, hws1, ?_, hws2, ?_,
                or_assoc.mp hmk, htail⟩
              · rw [hl0, hr2]
                simp [List.append_assoc]
              · simpa [decide_eq_true_eq] using hb
              · intro hn
                rw [hn] at he
                exact he rfl
            · rw [if_neg hcnd] at h
              simp at h
    · rw [if_neg hb] at h
      simp at h

theorem matchCB_reassemble (ws1 : List Char) (b : Char) (ws2 : List Char)
    (m : Char) (suf : List Char)
    (h1 : ∀ c ∈ ws1, jsWS c = true) (hb : b = '-' ∨ b = '*')
    (h2 : ∀ c ∈ ws2, jsWS c = true) (hne : ws2 ≠ [])
    (hm : m = ' ' ∨ m = 'x' ∨ m = 'X') (ht : Codec.cbTail suf = true) :
    Codec.matchCB (ws1 ++ b :: ws2 ++ '[' :: m :: suf) =
      some (ws1 ++ b :: ws2 ++ ['['], m, suf) := by
  have hbws : jsWS b = false := by
    rcases hb with rfl | rfl <;> decide
  have hsp1 : spanWS (ws1 ++ (b :: (ws2 ++ '[' :: m :: suf))) =
      (ws1, b :: (ws2 ++ '[' :: m :: suf)) := by
    apply spanWS_append _ _ h1
    intro c hch
    rw [List.head?_cons, Option.some.injEq] at hch
    rw [← hch]
    exact hbws
  have hsp2 : spanWS (ws2 ++ '[' :: m :: suf) = (ws2, '[' :: m :: suf) := by
    apply spanWS_append _ _ h2
    intro c hch
    rw [List.head?_cons, Option.some.injEq] at hch
    rw [← hch]
    decide
  have hbor : (b = '-' || b = '*') = true := by
    rcases hb with rfl | rfl <;> decide
  have hempty2 : ws2.isEmpty = false := by
    cases ws2 with
    | nil => exact absurd rfl hne
    | cons a t => rfl
  have hcnd : (('[' : Char) = '[' && (m = ' ' || m = 'x' || m = 'X') &&
      Codec.cbTail suf) = true := by
    rcases hm with rfl | rfl | rfl <;> simp [ht]
  have harg : ws1 ++ b :: ws2 ++ '[' :: m :: suf =
      ws1 ++ (b :: (ws2 ++ '[' :: m :: suf)) := by
    simp [List.append_assoc]
  rw [harg]
  simp only [Codec.matchCB, hsp1, hsp2, hbor, hempty2, hcnd, if_true,
    Bool.false_eq_true, if_false]
  simp [List.append_assoc]
  exact ⟨or_assoc.mpr hm, ht⟩

theorem toggleLine_match {l pre : List Char} {m : Char} {suf : List Char}
    (h : Codec.matchCB l = some (pre, m, suf)) :
    Codec.toggleLine l = pre ++ (if m.toLower = 'x' then ' ' else 'x') :: suf := by
  unfold Codec.toggleLine
  rw [h]

theorem toggleLine_invol (l : List Char)
    (hX : (Codec.matchCB l).map (fun x => x.2.1) ≠ some 'X') :
    Codec.toggleLine (Codec.toggleLine l) = l := by
  cases hm : Codec.matchCB l with
  | none => simp [Codec.toggleLine, hm]
  | some pms =>
    obtain ⟨pre, ms⟩ := pms
    obtain ⟨m, suf⟩ := ms
    obtain ⟨ws1, b, ws2, hpre, hl, h1, hb, h2, hne, hmOk, htail⟩ := matchCB_sound hm
    have hmX : m ≠ 'X' := by
      intro he
      rw [hm] at hX
      simp [he] at hX
    have hmm : m = ' ' ∨ m = 'x' := by
      rcases hmOk with h' | h' | h'
      · exact Or.inl h'
      · exact Or.inr h'
      · exact absurd h' hmX
    have hm2 : (if m.toLower = 'x' then ' ' else 'x') = ' ' ∨
        (if m.toLower = 'x' then ' ' else 'x') = 'x' ∨
        (if m.toLower = 'x' then ' ' else 'x') = 'X' := by
      rcases hmm with rfl | rfl
      · right; left; decide
      · left; decide
    have hback : (if (if m.toLower = 'x' then ' ' else 'x').toLower = 'x'
        then ' ' else 'x') = m := by
      rcases hmm with rfl | rfl <;> decide
    have hinner : Codec.toggleLine l =
        ws1 ++ b :: ws2 ++ '[' :: (if m.toLower = 'x' then ' ' else 'x') :: suf := by
      rw [toggleLine_match hm, hpre]
      simp [List.append_assoc]
    have hmatch2 := matchCB_reassemble ws1 b ws2
      (if m.toLower = 'x' then ' ' else 'x') suf h1 hb h2 hne hm2 htail
    rw [hinner, toggleLine_match hmatch2, hback, hl]
    simp [List.append_assoc]

theorem getD_mem_of_lt {α : Type} (l : List α) (n : Nat) (d : α)
    (h : n < l.length) : l.getD n d ∈ l := by
  induction l generalizing n with
  | nil => simp at h
  | cons a t ih =>
    cases n with
    | zero => simp [List.getD_cons_zero]
    | succ k =>
      rw [List.getD_cons_succ]
      exact List.mem_cons_of_mem a (ih k (by simpa using h))

theorem getD_set_self_at {α : Type} (l : List α) (n : Nat) (v d : α)
    (h : n < l.length) : (l.set n v).getD n d = v := by
  induction l generalizing n with
  | nil => simp at h
  | cons a t ih =>
    cases n with
    | zero => rfl
    | succ k =>
      simp only [List.set]
      rw [List.getD_cons_succ]
      exact ih k (by simpa using h)

theorem set_getD_self_at {α : Type} (l : List α) (n : Nat) (d : α)
    (h : n < l.length) : l.set n (l.getD n d) = l := by
  induction l generalizing n with
  | nil => simp at h
  | cons a t ih =>
    cases n with
    | zero => simp [List.getD_cons_zero]
    | succ k =>
      simp only [List.set, List.getD_cons_succ]
      rw [ih k (by simpa using h)]

theorem toggleLine_no_newline (l : List Char) (h : ('\n') ∉ l) :
    ('\n') ∉ Codec.toggleLine l := by
  cases hm : Codec.matchCB l with
  | none =>
    unfold Codec.toggleLine
    rw [hm]
    exact h
  | some pms =>
    obtain ⟨pre, ms⟩ := pms
    obtain ⟨m, suf⟩ := ms
    obtain ⟨ws1, b, ws2, hpre, hl, _, _, _, _, _, _⟩ := matchCB_sound hm
    have hl2 : l = pre ++ m :: suf := by
      rw [hl, hpre]
      simp [List.append_assoc]
    have hm2 : (if m.toLower = 'x' then ' ' else 'x') ≠ '\n' := by
      split_ifs <;> decide
    rw [toggleLine_match hm]
    intro hmem
    apply h
    rw [hl2]
    rcases List.mem_append.mp hmem with h1 | h1
    · exact List.mem_append_left _ h1
    · rcases List.mem_cons.mp h1 with he | h1
      · exact absurd he.symm hm2
      · exact List.mem_append_right _ (List.mem_cons_of_mem _ h1)

/-- C10 counterexample. Toggling the same line twice is not an involution in
general: an uppercase `[X]` marker comes back as lowercase `[x]`. -/
theorem toggleCheckbox_uppercase_cex :
    Codec.toggleCheckbox (Codec.toggleCheckbox "- [X] a".data 0) 0 ≠
      "- [X] a".data := by
  decide

/-- C10 (amended). Toggling the same line twice returns the content
unchanged whenever the addressed line's checkbox marker is not an uppercase
`X` (out-of-range indices and non-checkbox lines toggle to themselves);
a line checked with an uppercase `X` comes back with a lowercase `x`. -/
theorem toggleCheckbox_involution :
    (∀ cs i, Codec.markerAt cs i ≠ some 'X' →
      Codec.toggleCheckbox (Codec.toggleCheckbox cs i) i = cs) ∧
    Codec.toggleCheckbox (Codec.toggleCheckbox "- [X] a".data 0) 0 =
      "- [x] a".data := by
  refine ⟨?_, by decide⟩
  intro cs i hX
  unfold Codec.markerAt at hX
  dsimp only at hX
  by_cases hr : i < 0 ∨ ((splitCharL '\n' cs).length : Int) ≤ i
  · have hid : Codec.toggleCheckbox cs i = cs := by
      unfold Codec.toggleCheckbox
      dsimp only
      rw [if_pos hr]
    rw [hid, hid]
  · push_neg at hr
    obtain ⟨hi0, hilen⟩ := hr
    have hcond : ¬ (i < 0 ∨ ((splitCharL '\n' cs).length : Int) ≤ i) := by
      push_neg
      exact ⟨hi0, hilen⟩
    rw [if_neg hcond] at hX
    have hnlen : i.toNat < (splitCharL '\n' cs).length := by omega
    have hnf : ∀ x ∈ (splitCharL '\n' cs).set i.toNat
        (Codec.toggleLine ((splitCharL '\n' cs).getD i.toNat [])), ('\n') ∉ x := by
      intro x hx
      rcases List.mem_or_eq_of_mem_set hx with hx2 | rfl
      · exact splitCharL_no_sep '\n' cs x hx2
      · exact toggleLine_no_newline _
          (splitCharL_no_sep '\n' cs _ (getD_mem_of_lt _ _ _ hnlen))
    have hne2 : (splitCharL '\n' cs).set i.toNat
        (Codec.toggleLine ((splitCharL '\n' cs).getD i.toNat [])) ≠ [] := by
      intro he
      have hlen := congrArg List.length he
      rw [List.length_set] at hlen
      simp only [List.length_nil] at hlen
      omega
    have hsplit := splitCharL_joinChar '\n' _ hne2 hnf
    have hinner : Codec.toggleCheckbox cs i =
        joinChar '\n' ((splitCharL '\n' cs).set i.toNat
          (Codec.toggleLine ((splitCharL '\n' cs).getD i.toNat []))) := by
      unfold Codec.toggleCheckbox
      dsimp only
      rw [if_neg hcond]
    rw [hinner]
    unfold Codec.toggleCheckbox
    dsimp only
    rw [hsplit]
    have hlen2 : ((splitCharL '\n' cs).set i.toNat
        (Codec.toggleLine ((splitCharL '\n' cs).getD i.toNat []))).length =
        (splitCharL '\n' cs).length := by
      simp
    rw [hlen2, if_neg hcond]
    rw [getD_set_self_at _ _ _ _ hnlen]
    rw [toggleLine_invol _ hX]
    rw [List.set_set]
    rw [set_getD_self_at _ _ _ hnlen]
    exact joinChar_splitCharL '\n' cs

/-- Concrete instance of C10, via the theorem: an in-range lowercase
checkbox line toggles back to the original content. -/
theorem toggleCheckbox_involution_witness :
    Codec.toggleCheckbox (Codec.toggleCheckbox "a\n- [x] b".data 1) 1 =
      "a\n- [x] b".data :=
  toggleCheckbox_involution.1 _ 1 (by decide)

theorem mGet_eq_none_iff {V : Type} (m : List (String × V)) (id : String) :
    mGet m id = none ↔ id ∉ m.map (fun p => p.1) := by
  induction m with
  | nil => simp [mGet]
  | cons p t ih =>
    cases p with
    | mk k v =>
      by_cases h : k = id
      · subst h
        simp [mGet]
      · simp [mGet, h, ih, Ne.symm h]

theorem mGet_some_mem {V : Type} (m : List (String × V)) (id : String) (v : V)
    (h : mGet m id = some v) : (id, v) ∈ m := by
  induction m with
  | nil => simp [mGet] at h
  | cons p t ih =>
    cases p with
    | mk k v0 =>
      by_cases hk : k = id
      · subst hk
        simp [mGet] at h
        subst h
        exact List.mem_cons_self _ _
      · simp only [mGet, if_neg hk] at h
        exact List.mem_cons_of_mem _ (ih h)

theorem mem_pair_mGet {V : Type} (m : List (String × V)) (id : String) (v : V)
    (hnd : (m.map (fun p => p.1)).Nodup) (h : (id, v) ∈ m) :
    mGet m id = some v := by
  induction m with
  | nil => simp at h
  | cons p t ih =>
    cases p with
    | mk k0 v0 =>
      simp only [List.map_cons, List.nodup_cons] at hnd
      rcases List.mem_cons.mp h with he | hh
      · rw [Prod.mk.injEq] at he
        obtain ⟨he1, he2⟩ := he
        subst he1
        subst he2
        simp [mGet]
      · have hid : id ∈ t.map (fun p => p.1) :=
          List.mem_map.mpr ⟨(id, v), hh, rfl⟩
        have hk0 : ¬ k0 = id := by
          intro e
          subst e
          exact hnd.1 hid
        simp only [mGet, if_neg hk0]
        exact ih hnd.2 hh

theorem mem_keys_mSet {V : Type} (m : List (String × V)) (k k' : String) (v : V) :
    k' ∈ (mSet m k v).map (fun p => p.1) ↔ k' ∈ m.map (fun p => p.1) ∨ k' = k := by
  induction m with
  | nil => simp [mSet]
  | cons p t ih =>
    cases p with
    | mk k0 v0 =>
      by_cases h : k0 = k
      · subst h
        simp [mSet]
        tauto
      · simp [mSet, h, ih]
        tauto

theorem keys_nodup_mSet {V : Type} (m : List (String × V)) (k : String) (v : V)
    (h : (m.map (fun p => p.1)).Nodup) :
    ((mSet m k v).map (fun p => p.1)).Nodup := by
  induction m with
  | nil => simp [mSet]
  | cons p t ih =>
    cases p with
    | mk k0 v0 =>
      by_cases h0 : k0 = k
      · subst h0
        simpa [mSet] using h
      · simp only [List.map_cons, List.nodup_cons] at h
        simp only [mSet, if_neg h0, List.map_cons, List.nodup_cons]
        refine ⟨fun hmem => ?_, ih h.2⟩
        rw [mem_keys_mSet] at hmem
        rcases hmem with hh | hh
        · exact h.1 hh
        · exact h0 hh

theorem mem_mDel {V : Type} (m : List (String × V)) (k : String)
    (p : String × V) (h : p ∈ mDel m k) : p ∈ m := by
  induction m with
  | nil => simpa [mDel] using h
  | cons q t ih =>
    cases q with
    | mk k0 v0 =>
      by_cases h0 : k0 = k
      · simp only [mDel, if_pos h0] at h
        exact List.mem_cons_of_mem _ (ih h)
      · simp only [mDel, if_neg h0] at h
        rcases List.mem_cons.mp h with rfl | hh
        · exact List.mem_cons_self _ _
        · exact List.mem_cons_of_mem _ (ih hh)

theorem keys_nodup_mDel {V : Type} (m : List (String × V)) (k : String)
    (h : (m.map (fun p => p.1)).Nodup) :
    ((mDel m k).map (fun p => p.1)).Nodup := by
  induction m with
  | nil => simp [mDel]
  | cons q t ih =>
    cases q with
    | mk k0 v0 =>
      simp only [List.map_cons, List.nodup_cons] at h
      by_cases h0 : k0 = k
      · simp only [mDel, if_pos h0]
        exact ih h.2
      · simp only [mDel, if_neg h0, List.map_cons, List.nodup_cons]
        refine ⟨fun hmem => ?_, ih h.2⟩
        rcases List.mem_map.mp hmem with ⟨q, hq, hq2⟩
        exact h.1 (List.mem_map.mpr ⟨q, mem_mDel t k q hq, hq2⟩)

theorem widgetTransfer_id (ln : Option DSvc.DNote) (p : DSvc.DNote) :
    (DSvc.widgetTransfer ln p).id = p.id := by
  unfold DSvc.widgetTransfer
  cases ln with
  | none => rfl
  | some l =>
    dsimp only
    cases h : l.widgetId with
    | none => rfl
    | some w =>
      dsimp only
      split_ifs <;> rfl

theorem dlStep_map_get (env : DSvc.SEnv) (e : DSvc.REntry) (acc : DSvc.SyncAcc)
    (id : String)
    (hp : ∀ t p, e.body = some t → DSvc.parseNoteS t e.name env.nowStr = some p →
      p.id ≠ id) :
    mGet (DSvc.dlStep env acc e).map id = mGet acc.map id := by
  unfold DSvc.dlStep
  by_cases hmd : DSvc.isMdFile e = true
  · rw [if_pos hmd]
    dsimp only
    cases hloc : mGet acc.map (DSvc.entryId e) with
    | none =>
      dsimp only
      rw [if_pos rfl]
      cases hbody : e.body with
      | none => rfl
      | some t =>
        dsimp only
        cases hparse : DSvc.parseNoteS t e.name env.nowStr with
        | none => rfl
        | some p =>
          dsimp only
          rw [widgetTransfer_id]
          exact mGet_mSet_ne _ _ _ _ (hp t p hbody hparse)
    | some ln =>
      dsimp only
      by_cases hts : env.dateMs e.clientModified > env.dateMs ln.updated + 2000
      · rw [if_pos (decide_eq_true hts)]
        cases hbody : e.body with
        | none => rfl
        | some t =>
          dsimp only
          cases hparse : DSvc.parseNoteS t e.name env.nowStr with
          | none => rfl
          | some p =>
            dsimp only
            rw [widgetTransfer_id]
            exact mGet_mSet_ne _ _ _ _ (hp t p hbody hparse)
      · rw [if_neg (by simpa using hts)]
  · rw [if_neg hmd]

theorem dlStep_downloads (env : DSvc.SEnv) (e : DSvc.REntry) (acc : DSvc.SyncAcc) :
    (DSvc.dlStep env acc e).downloads = acc.downloads ∨
    (DSvc.dlStep env acc e).downloads = acc.downloads ++ [e.name] := by
  unfold DSvc.dlStep
  by_cases hmd : DSvc.isMdFile e = true
  · rw [if_pos hmd]
    dsimp only
    cases hloc : mGet acc.map (DSvc.entryId e) with
    | none =>
      dsimp only
      rw [if_pos rfl]
      cases hbody : e.body with
      | none => exact Or.inr rfl
      | some t =>
        dsimp only
        cases hparse : DSvc.parseNoteS t e.name env.nowStr with
        | none => exact Or.inr rfl
        | some p => exact Or.inr rfl
    | some ln =>
      dsimp only
      by_cases hts : env.dateMs e.clientModified > env.dateMs ln.updated + 2000
      · rw [if_pos (decide_eq_true hts)]
        cases hbody : e.body with
        | none => exact Or.inr rfl
        | some t =>
          dsimp only
          cases hparse : DSvc.parseNoteS t e.name env.nowStr with
          | none => exact Or.inr rfl
          | some p => exact Or.inr rfl
      · rw [if_neg (by simpa using hts)]
        exact Or.inl rfl
  · rw [if_neg hmd]
    exact Or.inl rfl

theorem dlFold_map_get (env : DSvc.SEnv) (l : List DSvc.REntry) (acc : DSvc.SyncAcc)
    (id : String)
    (hp : ∀ e ∈ l, ∀ t p, e.body = some t →
      DSvc.parseNoteS t e.name env.nowStr = some p → p.id ≠ id) :
    mGet (l.foldl (DSvc.dlStep env) acc).map id = mGet acc.map id := by
  induction l generalizing acc with
  | nil => rfl
  | cons e t ih =>
    rw [List.foldl_cons]
    rw [ih _ (fun e' he' => hp e' (List.mem_cons_of_mem _ he'))]
    exact dlStep_map_get env e acc id (hp e (List.mem_cons_self _ _))

theorem dlFold_downloads_mem (env : DSvc.SEnv) (l : List DSvc.REntry)
    (acc : DSvc.SyncAcc) (nm : String) (h : ∀ e ∈ l, e.name ≠ nm) :
    (nm ∈ (l.foldl (DSvc.dlStep env) acc).downloads ↔ nm ∈ acc.downloads) := by
  induction l generalizing acc with
  | nil => exact Iff.rfl
  | cons e t ih =>
    rw [List.foldl_cons]
    rw [ih _ (fun e' he' => h e' (List.mem_cons_of_mem _ he'))]
    rcases dlStep_downloads env e acc with h1 | h1
    · rw [h1]
    · rw [h1]
      have hne := h e (List.mem_cons_self _ _)
      simp only [List.mem_append, List.mem_singleton]
      constructor
      · rintro (hh | hh)
        · exact hh
        · exact absurd hh.symm hne
      · exact fun hh => Or.inl hh

theorem dlStep_skip (env : DSvc.SEnv) (e : DSvc.REntry) (acc : DSvc.SyncAcc)
    (note : DSvc.DNote) (hmd : DSvc.isMdFile e = true)
    (hget : mGet acc.map (DSvc.entryId e) = some note)
    (hts : ¬ env.dateMs e.clientModified > env.dateMs note.updated + 2000) :
    DSvc.dlStep env acc e = acc := by
  unfold DSvc.dlStep
  rw [if_pos hmd]
  dsimp only
  rw [hget]
  dsimp only
  rw [if_neg (by simpa using hts)]

theorem dlStep_download (env : DSvc.SEnv) (e : DSvc.REntry) (acc : DSvc.SyncAcc)
    (note : DSvc.DNote) (t : String) (p : DSvc.DNote)
    (hmd : DSvc.isMdFile e = true)
    (hget : mGet acc.map (DSvc.entryId e) = some note)
    (hts : env.dateMs e.clientModified > env.dateMs note.updated + 2000)
    (hbody : e.body = some t)
    (hparse : DSvc.parseNoteS t e.name env.nowStr = some p) :
    DSvc.dlStep env acc e =
      { map := mSet acc.map (DSvc.widgetTransfer (some note) p).id
          (DSvc.widgetTransfer (some note) p)
      , downloads := acc.downloads ++ [e.name]
      , synced := acc.synced + 1 } := by
  unfold DSvc.dlStep
  rw [if_pos hmd]
  dsimp only
  rw [hget]
  dsimp only
  rw [if_pos (by simpa using hts), hbody]
  dsimp only
  rw [hparse]

theorem delStep_get_other (env : DSvc.SEnv) (rids : List String)
    (acc : List (String × DSvc.DNote) × Nat) (n : DSvc.DNote) (id : String)
    (hne : n.id ≠ id) :
    mGet (DSvc.delStep env rids acc n).1 id = mGet acc.1 id := by
  unfold DSvc.delStep
  split_ifs with h1 h2
  · rfl
  · exact mGet_mDel_ne _ _ _ hne
  · rfl

theorem delStep_none (env : DSvc.SEnv) (rids : List String)
    (acc : List (String × DSvc.DNote) × Nat) (n : DSvc.DNote) (id : String)
    (h : mGet acc.1 id = none) :
    mGet (DSvc.delStep env rids acc n).1 id = none := by
  unfold DSvc.delStep
  split_ifs with h1 h2
  · exact h
  · by_cases he : n.id = id
    · subst he
      exact mGet_mDel_self _ _
    · rw [mGet_mDel_ne _ _ _ he]
      exact h
  · exact h

theorem delFold_get_other (env : DSvc.SEnv) (rids : List String)
    (l : List DSvc.DNote) (acc : List (String × DSvc.DNote) × Nat) (id : String)
    (h : ∀ n ∈ l, n.id ≠ id) :
    mGet (l.foldl (DSvc.delStep env rids) acc).1 id = mGet acc.1 id := by
  induction l generalizing acc with
  | nil => rfl
  | cons n t ih =>
    rw [List.foldl_cons]
    rw [ih _ (fun n' hn' => h n' (List.mem_cons_of_mem _ hn'))]
    exact delStep_get_other env rids acc n id (h n (List.mem_cons_self _ _))

theorem delFold_none (env : DSvc.SEnv) (rids : List String)
    (l : List DSvc.DNote) (acc : List (String × DSvc.DNote) × Nat) (id : String)
    (h : mGet acc.1 id = none) :
    mGet (l.foldl (DSvc.delStep env rids) acc).1 id = none := by
  induction l generalizing acc with
  | nil => exact h
  | cons n t ih =>
    rw [List.foldl_cons]
    exact ih _ (delStep_none env rids acc n id h)

theorem delStep_keep (env : DSvc.SEnv) (rids : List String)
    (acc : List (String × DSvc.DNote) × Nat) (n : DSvc.DNote)
    (h : n.id ∈ rids ∨ ¬ env.dateMs n.created < env.now - 30000) :
    DSvc.delStep env rids acc n = acc := by
  unfold DSvc.delStep
  rcases h with h | h
  · rw [if_pos h]
  · by_cases h1 : n.id ∈ rids
    · rw [if_pos h1]
    · rw [if_neg h1, if_neg h]

theorem delStep_drop (env : DSvc.SEnv) (rids : List String)
    (acc : List (String × DSvc.DNote) × Nat) (n : DSvc.DNote)
    (h1 : n.id ∉ rids) (h2 : env.dateMs n.created < env.now - 30000) :
    DSvc.delStep env rids acc n = (mDel acc.1 n.id, acc.2 + 1) := by
  unfold DSvc.delStep
  rw [if_neg h1, if_pos h2]

theorem initFold_get_untouched (l : List DSvc.DNote)
    (acc : List (String × DSvc.DNote)) (id : String) (h : ∀ n ∈ l, n.id ≠ id) :
    mGet (l.foldl (fun m n => mSet m n.id n) acc) id = mGet acc id := by
  induction l generalizing acc with
  | nil => rfl
  | cons n t ih =>
    rw [List.foldl_cons]
    rw [ih _ (fun n' hn' => h n' (List.mem_cons_of_mem _ hn'))]
    exact mGet_mSet_ne _ _ _ _ (h n (List.mem_cons_self _ _))

theorem initFold_get_mem (s t : List DSvc.DNote) (n : DSvc.DNote)
    (hnd : ((s ++ n :: t).map (fun x => x.id)).Nodup) :
    mGet ((s ++ n :: t).foldl (fun m x => mSet m x.id x) []) n.id = some n := by
  rw [List.foldl_append, List.foldl_cons]
  have hnt : n.id ∉ t.map (fun x => x.id) := by
    rw [List.map_append, List.map_cons] at hnd
    have h2 := hnd.of_append_right
    exact (List.nodup_cons.mp h2).1
  rw [initFold_get_untouched t _ n.id ?hne]
  case hne =>
    intro n' hn' he
    exact hnt (List.mem_map.mpr ⟨n', hn', he⟩)
  exact mGet_mSet_self _ _ _

theorem WF_mSet {V : Type} (f : V → String) (m : List (String × V)) (k : String)
    (v : V) (hm : ∀ p ∈ m, f p.2 = p.1) (hv : f v = k) :
    ∀ p ∈ mSet m k v, f p.2 = p.1 := by
  induction m with
  | nil =>
    intro p hp
    simp [mSet] at hp
    subst hp
    exact hv
  | cons q t ih =>
    cases q with
    | mk k0 v0 =>
      intro p hp
      by_cases h0 : k0 = k
      · subst h0
        simp only [mSet, if_pos rfl] at hp
        rcases List.mem_cons.mp hp with rfl | hh
        · exact hv
        · exact hm p (List.mem_cons_of_mem _ hh)
      · simp only [mSet, if_neg h0] at hp
        rcases List.mem_cons.mp hp with rfl | hh
        · exact hm (k0, v0) (List.mem_cons_self _ _)
        · exact ih (fun q hq => hm q (List.mem_cons_of_mem _ hq)) p hh

theorem WF_mDel {V : Type} (f : V → String) (m : List (String × V)) (k : String)
    (hm : ∀ p ∈ m, f p.2 = p.1) :
    ∀ p ∈ mDel m k, f p.2 = p.1 :=
  fun p hp => hm p (mem_mDel m k p hp)

theorem WF_initFold (l : List DSvc.DNote) (acc : List (String × DSvc.DNote))
    (hacc : ∀ p ∈ acc, p.2.id = p.1) :
    ∀ p ∈ l.foldl (fun m n => mSet m n.id n) acc, p.2.id = p.1 := by
  induction l generalizing acc with
  | nil => exact hacc
  | cons n t ih =>
    rw [List.foldl_cons]
    exact ih _ (WF_mSet (fun x => x.id) acc n.id n hacc rfl)

theorem keysND_initFold (l : List DSvc.DNote) (acc : List (String × DSvc.DNote))
    (hacc : (acc.map (fun p => p.1)).Nodup) :
    (((l.foldl (fun m n => mSet m n.id n) acc)).map (fun p => p.1)).Nodup := by
  induction l generalizing acc with
  | nil => exact hacc
  | cons n t ih =>
    rw [List.foldl_cons]
    exact ih _ (keys_nodup_mSet acc n.id n hacc)

theorem dlStep_map_shape (env : DSvc.SEnv) (acc : DSvc.SyncAcc) (e : DSvc.REntry) :
    (DSvc.dlStep env acc e).map = acc.map ∨
    ∃ p2 : DSvc.DNote, (DSvc.dlStep env acc e).map = mSet acc.map p2.id p2 := by
  unfold DSvc.dlStep
  by_cases hmd : DSvc.isMdFile e = true
  · rw [if_pos hmd]
    dsimp only
    cases hloc : mGet acc.map (DSvc.entryId e) with
    | none =>
      dsimp only
      rw [if_pos rfl]
      cases hbody : e.body with
      | none => exact Or.inl rfl
      | some t =>
        dsimp only
        cases hparse : DSvc.parseNoteS t e.name env.nowStr with
        | none => exact Or.inl rfl
        | some p => exact Or.inr ⟨DSvc.widgetTransfer none p, rfl⟩
    | some ln =>
      dsimp only
      by_cases hts : env.dateMs e.clientModified > env.dateMs ln.updated + 2000
      · rw [if_pos (decide_eq_true hts)]
        cases hbody : e.body with
        | none => exact Or.inl rfl
        | some t =>
          dsimp only
          cases hparse : DSvc.parseNoteS t e.name env.nowStr with
          | none => exact Or.inl rfl
          | some p => exact Or.inr ⟨DSvc.widgetTransfer (some ln) p, rfl⟩
      · rw [if_neg (by simpa using hts)]
        exact Or.inl rfl
  · rw [if_neg hmd]
    exact Or.inl rfl

theorem delStep_map_shape (env : DSvc.SEnv) (rids : List String)
    (acc : List (String × DSvc.DNote) × Nat) (n : DSvc.DNote) :
    (DSvc.delStep env rids acc n).1 = acc.1 ∨
    (DSvc.delStep env rids acc n).1 = mDel acc.1 n.id := by
  unfold DSvc.delStep
  by_cases h1 : n.id ∈ rids
  · rw [if_pos h1]
    exact Or.inl rfl
  · rw [if_neg h1]
    by_cases h2 : env.dateMs n.created < env.now - 30000
    · rw [if_pos h2]
      exact Or.inr rfl
    · rw [if_neg h2]
      exact Or.inl rfl

theorem WF_dlFold (env : DSvc.SEnv) (l : List DSvc.REntry) (acc : DSvc.SyncAcc)
    (hacc : ∀ p ∈ acc.map, p.2.id = p.1) :
    ∀ p ∈ (l.foldl (DSvc.dlStep env) acc).map, p.2.id = p.1 := by
  induction l generalizing acc with
  | nil => exact hacc
  | cons e t ih =>
    rw [List.foldl_cons]
    apply ih
    rcases dlStep_map_shape env acc e with h | ⟨p2, h⟩
    · rw [h]
      exact hacc
    · rw [h]
      exact WF_mSet (fun x => x.id) acc.map p2.id p2 hacc rfl

theorem keysND_dlFold (env : DSvc.SEnv) (l : List DSvc.REntry) (acc : DSvc.SyncAcc)
    (hacc : (acc.map.map (fun p => p.1)).Nodup) :
    (((l.foldl (DSvc.dlStep env) acc)).map.map (fun p => p.1)).Nodup := by
  induction l generalizing acc with
  | nil => exact hacc
  | cons e t ih =>
    rw [List.foldl_cons]
    apply ih
    rcases dlStep_map_shape env acc e with h | ⟨p2, h⟩
    · rw [h]
      exact hacc
    · rw [h]
      exact keys_nodup_mSet _ _ _ hacc

theorem WF_delFold (env : DSvc.SEnv) (rids : List String) (l : List DSvc.DNote)
    (acc : List (String × DSvc.DNote) × Nat)
    (hacc : ∀ p ∈ acc.1, p.2.id = p.1) :
    ∀ p ∈ (l.foldl (DSvc.delStep env rids) acc).1, p.2.id = p.1 := by
  induction l generalizing acc with
  | nil => exact hacc
  | cons n t ih =>
    rw [List.foldl_cons]
    apply ih
    rcases delStep_map_shape env rids acc n with h | h
    · rw [h]
      exact hacc
    · rw [h]
      exact WF_mDel (fun x => x.id) acc.1 n.id hacc

theorem keysND_delFold (env : DSvc.SEnv) (rids : List String) (l : List DSvc.DNote)
    (acc : List (String × DSvc.DNote) × Nat)
    (hacc : (acc.1.map (fun p => p.1)).Nodup) :
    ((l.foldl (DSvc.delStep env rids) acc).1.map (fun p => p.1)).Nodup := by
  induction l generalizing acc with
  | nil => exact hacc
  | cons n t ih =>
    rw [List.foldl_cons]
    apply ih
    rcases delStep_map_shape env rids acc n with h | h
    · rw [h]
      exact hacc
    · rw [h]
      exact keys_nodup_mDel _ _ hacc

theorem vals_find_of_mGet (m : List (String × DSvc.DNote)) (id : String)
    (v : DSvc.DNote) (hWF : ∀ p ∈ m, p.2.id = p.1) (h : mGet m id = some v) :
    (m.map (fun p => p.2)).find? (fun x => x.id = id) = some v := by
  induction m with
  | nil => simp [mGet] at h
  | cons p t ih =>
    cases p with
    | mk k0 v0 =>
      have hv0 : v0.id = k0 := hWF (k0, v0) (List.mem_cons_self _ _)
      by_cases hk : k0 = id
      · subst hk
        simp [mGet] at h
        subst h
        simp [List.find?, hv0]
      · simp only [mGet, if_neg hk] at h
        have hne : ¬ (v0.id = id) := by
          rw [hv0]
          exact hk
        have hdec : decide (v0.id = id) = false := by
          simp [hne]
        simp only [List.map_cons, List.find?, hdec]
        exact ih (fun q hq => hWF q (List.mem_cons_of_mem _ hq)) h

theorem vals_mem_of_mGet (m : List (String × DSvc.DNote)) (id : String)
    (v : DSvc.DNote) (h : mGet m id = some v) :
    v ∈ m.map (fun p => p.2) :=
  List.mem_map.mpr ⟨(id, v), mGet_some_mem _ _ _ h, rfl⟩

theorem id_mem_uploads (m : List (String × DSvc.DNote)) (f : DSvc.DNote → Bool)
    (id : String) (v : DSvc.DNote) (hWF : ∀ p ∈ m, p.2.id = p.1)
    (h : mGet m id = some v) (hf : f v = true) :
    id ∈ (((m.map (fun p => p.2)).filter f).map (fun n => n.id)) := by
  have hv : v ∈ m.map (fun p => p.2) := vals_mem_of_mGet m id v h
  have hid : v.id = id := hWF (id, v) (mGet_some_mem _ _ _ h)
  exact List.mem_map.mpr ⟨v, List.mem_filter.mpr ⟨hv, hf⟩, hid⟩

theorem id_not_mem_vals (m : List (String × DSvc.DNote)) (id : String)
    (hWF : ∀ p ∈ m, p.2.id = p.1) (h : mGet m id = none) :
    id ∉ (m.map (fun p => p.2)).map (fun n => n.id) := by
  intro hmem
  obtain ⟨x, hx, hxid⟩ := List.mem_map.mp hmem
  obtain ⟨⟨k, x'⟩, hp, he⟩ := List.mem_map.mp hx
  subst he
  have hk : x'.id = k := hWF (k, x') hp
  rw [mGet_eq_none_iff] at h
  apply h
  refine List.mem_map.mpr ⟨(k, x'), hp, ?_⟩
  rw [← hxid, hk]

theorem id_not_mem_uploads_none (m : List (String × DSvc.DNote))
    (f : DSvc.DNote → Bool) (id : String) (hWF : ∀ p ∈ m, p.2.id = p.1)
    (h : mGet m id = none) :
    id ∉ ((m.map (fun p => p.2)).filter f).map (fun n => n.id) := by
  intro hmem
  obtain ⟨x, hx, hxid⟩ := List.mem_map.mp hmem
  apply id_not_mem_vals m id hWF h
  exact List.mem_map.mpr ⟨x, (List.mem_filter.mp hx).1, hxid⟩

theorem id_not_mem_uploads_false (m : List (String × DSvc.DNote))
    (f : DSvc.DNote → Bool) (id : String) (v : DSvc.DNote)
    (hWF : ∀ p ∈ m, p.2.id = p.1) (hND : (m.map (fun p => p.1)).Nodup)
    (h : mGet m id = some v) (hf : f v = false) :
    id ∉ ((m.map (fun p => p.2)).filter f).map (fun n => n.id) := by
  intro hmem
  obtain ⟨x, hx, hxid⟩ := List.mem_map.mp hmem
  obtain ⟨hx2, hfx⟩ := List.mem_filter.mp hx
  obtain ⟨⟨k, x'⟩, hp, he⟩ := List.mem_map.mp hx2
  subst he
  have hk : x'.id = k := hWF (k, x') hp
  have hkid : k = id := by
    rw [← hk, hxid]
  subst hkid
  have := mem_pair_mGet m k x' hND hp
  rw [h] at this
  rw [Option.some.injEq] at this
  subst this
  rw [hf] at hfx
  exact Bool.false_ne_true hfx

theorem find?_name_unique (entries : List DSvc.REntry) (e : DSvc.REntry)
    (nm : String) (he : e ∈ entries) (hname : e.name = nm)
    (hu : ∀ x ∈ entries, x.name = nm → x = e) :
    entries.find? (fun x => x.name = nm) = some e := by
  induction entries with
  | nil => simp at he
  | cons a t ih =>
    by_cases ha : a.name = nm
    · have hae : a = e := hu a (List.mem_cons_self _ _) ha
      subst hae
      simp [List.find?, ha]
    · have het : e ∈ t := by
        rcases List.mem_cons.mp he with rfl | h
        · exact absurd hname ha
        · exact h
      have hdec : decide (a.name = nm) = false := by
        simp [ha]
      simp only [List.find?, hdec]
      exact ih het (fun x hx hxn => hu x (List.mem_cons_of_mem _ hx) hxn)

theorem dlStepE_fs_get (env : El.EEnv) (acc : El.FS × List String × Nat)
    (e : El.EEntry) (nm : String) (hne : e.name ≠ nm) :
    mGet (El.dlStepE env acc e).1 nm = mGet acc.1 nm := by
  unfold El.dlStepE
  by_cases hmd : El.eIsMd e = true
  · rw [if_pos hmd]
    by_cases hdl : El.shouldDownloadE env acc.1 e = true
    · rw [if_pos hdl]
      cases hbody : e.body with
      | none => rfl
      | some doc =>
        dsimp only
        exact mGet_mSet_ne _ _ _ _ hne
    · rw [if_neg hdl]
  · rw [if_neg hmd]

theorem dlStepE_shape (env : El.EEnv) (acc : El.FS × List String × Nat)
    (e : El.EEntry) :
    (El.dlStepE env acc e).1 = acc.1 ∨
    ∃ d : El.FData, (El.dlStepE env acc e).1 = mSet acc.1 e.name d := by
  unfold El.dlStepE
  by_cases hmd : El.eIsMd e = true
  · rw [if_pos hmd]
    by_cases hdl : El.shouldDownloadE env acc.1 e = true
    · rw [if_pos hdl]
      cases hbody : e.body with
      | none => exact Or.inl rfl
      | some doc => exact Or.inr ⟨{ doc := doc, ctime := env.now }, rfl⟩
    · rw [if_neg hdl]
      exact Or.inl rfl
  · rw [if_neg hmd]
    exact Or.inl rfl

theorem dlStepE_downloads (env : El.EEnv) (acc : El.FS × List String × Nat)
    (e : El.EEntry) :
    (El.dlStepE env acc e).2.1 = acc.2.1 ∨
    (El.dlStepE env acc e).2.1 = acc.2.1 ++ [e.name] := by
  unfold El.dlStepE
  by_cases hmd : El.eIsMd e = true
  · rw [if_pos hmd]
    by_cases hdl : El.shouldDownloadE env acc.1 e = true
    · rw [if_pos hdl]
      cases hbody : e.body with
      | none => exact Or.inr rfl
      | some doc => exact Or.inr rfl
    · rw [if_neg hdl]
      exact Or.inl rfl
  · rw [if_neg hmd]
    exact Or.inl rfl

theorem dlFoldE_fs_get (env : El.EEnv) (l : List El.EEntry)
    (acc : El.FS × List String × Nat) (nm : String)
    (h : ∀ e ∈ l, e.name ≠ nm) :
    mGet (l.foldl (El.dlStepE env) acc).1 nm = mGet acc.1 nm := by
  induction l generalizing acc with
  | nil => rfl
  | cons e t ih =>
    rw [List.foldl_cons]
    rw [ih _ (fun e' he' => h e' (List.mem_cons_of_mem _ he'))]
    exact dlStepE_fs_get env acc e nm (h e (List.mem_cons_self _ _))

theorem dlFoldE_downloads_mem (env : El.EEnv) (l : List El.EEntry)
    (acc : El.FS × List String × Nat) (nm : String)
    (h : ∀ e ∈ l, e.name ≠ nm) :
    (nm ∈ (l.foldl (El.dlStepE env) acc).2.1 ↔ nm ∈ acc.2.1) := by
  induction l generalizing acc with
  | nil => exact Iff.rfl
  | cons e t ih =>
    rw [List.foldl_cons]
    rw [ih _ (fun e' he' => h e' (List.mem_cons_of_mem _ he'))]
    rcases dlStepE_downloads env acc e with h1 | h1
    · rw [h1]
    · rw [h1]
      have hne := h e (List.mem_cons_self _ _)
      simp only [List.mem_append, List.mem_singleton]
      constructor
      · rintro (hh | hh)
        · exact hh
        · exact absurd hh.symm hne
      · exact fun hh => Or.inl hh

theorem keysND_dlFoldE (env : El.EEnv) (l : List El.EEntry)
    (acc : El.FS × List String × Nat)
    (hacc : (acc.1.map (fun p => p.1)).Nodup) :
    ((l.foldl (El.dlStepE env) acc).1.map (fun p => p.1)).Nodup := by
  induction l generalizing acc with
  | nil => exact hacc
  | cons e t ih =>
    rw [List.foldl_cons]
    apply ih
    rcases dlStepE_shape env acc e with h | ⟨d, h⟩
    · rw [h]
      exact hacc
    · rw [h]
      exact keys_nodup_mSet _ _ _ hacc

theorem dlStepE_skip (env : El.EEnv) (acc : El.FS × List String × Nat)
    (e : El.EEntry) (hdl : El.shouldDownloadE env acc.1 e = false) :
    El.dlStepE env acc e = acc := by
  unfold El.dlStepE
  by_cases hmd : El.eIsMd e = true
  · rw [if_pos hmd, if_neg (by simp [hdl])]
  · rw [if_neg hmd]

theorem dlStepE_download (env : El.EEnv) (acc : El.FS × List String × Nat)
    (e : El.EEntry) (doc : Codec.CoreDoc) (hmd : El.eIsMd e = true)
    (hdl : El.shouldDownloadE env acc.1 e = true) (hbody : e.body = some doc) :
    El.dlStepE env acc e =
      (mSet acc.1 e.name { doc := doc, ctime := env.now },
       acc.2.1 ++ [e.name], acc.2.2 + 1) := by
  unfold El.dlStepE
  rw [if_pos hmd, if_pos hdl, hbody]

theorem delStepE_get_other (env : El.EEnv) (rids : List String)
    (acc : El.FS × Nat) (name nm : String) (hne : name ≠ nm) :
    mGet (El.delStepE env rids acc name).1 nm = mGet acc.1 nm := by
  unfold El.delStepE
  by_cases h1 : strEndsWith name ".md" = true
  · rw [if_pos h1]
    by_cases h2 : replaceFirst name ".md" ∈ rids
    · rw [if_pos h2]
    · rw [if_neg h2]
      cases hget : mGet acc.1 name with
      | none => rfl
      | some f =>
        dsimp only
        by_cases h3 : env.now - f.ctime > 30000
        · rw [if_pos h3]
          exact mGet_mDel_ne _ _ _ hne
        · rw [if_neg h3]
  · rw [if_neg h1]

theorem delStepE_none (env : El.EEnv) (rids : List String) (acc : El.FS × Nat)
    (name nm : String) (h : mGet acc.1 nm = none) :
    mGet (El.delStepE env rids acc name).1 nm = none := by
  by_cases hne : name = nm
  · subst hne
    unfold El.delStepE
    by_cases h1 : strEndsWith name ".md" = true
    · rw [if_pos h1]
      by_cases h2 : replaceFirst name ".md" ∈ rids
      · rw [if_pos h2]
        exact h
      · rw [if_neg h2, h]
        exact h
    · rw [if_neg h1]
      exact h
  · rw [delStepE_get_other env rids acc name nm hne]
    exact h

theorem delFoldE_get_other (env : El.EEnv) (rids : List String)
    (l : List String) (acc : El.FS × Nat) (nm : String)
    (h : ∀ x ∈ l, x ≠ nm) :
    mGet (l.foldl (El.delStepE env rids) acc).1 nm = mGet acc.1 nm := by
  induction l generalizing acc with
  | nil => rfl
  | cons x t ih =>
    rw [List.foldl_cons]
    rw [ih _ (fun y hy => h y (List.mem_cons_of_mem _ hy))]
    exact delStepE_get_other env rids acc x nm (h x (List.mem_cons_self _ _))

theorem delFoldE_none (env : El.EEnv) (rids : List String) (l : List String)
    (acc : El.FS × Nat) (nm : String) (h : mGet acc.1 nm = none) :
    mGet (l.foldl (El.delStepE env rids) acc).1 nm = none := by
  induction l generalizing acc with
  | nil => exact h
  | cons x t ih =>
    rw [List.foldl_cons]
    exact ih _ (delStepE_none env rids acc x nm h)

theorem delStepE_keep (env : El.EEnv) (rids : List String) (acc : El.FS × Nat)
    (name : String) (f : El.FData) (hget : mGet acc.1 name = some f)
    (h : replaceFirst name ".md" ∈ rids ∨ ¬ env.now - f.ctime > 30000) :
    El.delStepE env rids acc name = acc := by
  unfold El.delStepE
  by_cases h1 : strEndsWith name ".md" = true
  · rw [if_pos h1]
    rcases h with h | h
    · rw [if_pos h]
    · by_cases h2 : replaceFirst name ".md" ∈ rids
      · rw [if_pos h2]
      · rw [if_neg h2, hget]
        dsimp only
        rw [if_neg h]
  · rw [if_neg h1]

theorem delStepE_drop (env : El.EEnv) (rids : List String) (acc : El.FS × Nat)
    (name : String) (f : El.FData) (hmd : strEndsWith name ".md" = true)
    (hget : mGet acc.1 name = some f) (hr : replaceFirst name ".md" ∉ rids)
    (hage : env.now - f.ctime > 30000) :
    El.delStepE env rids acc name = (mDel acc.1 name, acc.2 + 1) := by
  unfold El.delStepE
  rw [if_pos hmd, if_neg hr, hget]
  dsimp only
  rw [if_pos hage]

theorem mem_uploadBatch_iff (fs : El.FS) (nm : String) :
    nm ∈ El.uploadBatch fs ↔
      nm ∈ fs.map (fun p => p.1) ∧ strEndsWith nm ".md" = true := by
  unfold El.uploadBatch
  rw [List.mem_filter]

theorem nodup_split_ne (s t : List String) (nm : String)
    (h : (s ++ nm :: t).Nodup) :
    (∀ x ∈ s, x ≠ nm) ∧ (∀ x ∈ t, x ≠ nm) := by
  rw [List.nodup_append] at h
  obtain ⟨h1, h2, h3⟩ := h
  constructor
  · intro x hx he
    exact h3 hx (by rw [he]; exact List.mem_cons_self _ _)
  · intro x hx he
    rw [he] at hx
    exact (List.nodup_cons.mp h2).1 hx

theorem nodup_split_map {α : Type} (f : α → String) (s t : List α) (a : α)
    (h : ((s ++ a :: t).map f).Nodup) :
    (∀ x ∈ s, f x ≠ f a) ∧ (∀ x ∈ t, f x ≠ f a) := by
  rw [List.map_append, List.map_cons] at h
  have hsp := nodup_split_ne (s.map f) (t.map f) (f a) h
  constructor
  · intro x hx
    exact hsp.1 (f x) (List.mem_map.mpr ⟨x, hx, rfl⟩)
  · intro x hx
    exact hsp.2 (f x) (List.mem_map.mpr ⟨x, hx, rfl⟩)

theorem delFold_get_keep (env : DSvc.SEnv) (rids : List String)
    (l : List DSvc.DNote) (acc : List (String × DSvc.DNote) × Nat) (id : String)
    (h : ∀ n ∈ l, n.id = id → n.id ∈ rids) :
    mGet (l.foldl (DSvc.delStep env rids) acc).1 id = mGet acc.1 id := by
  induction l generalizing acc with
  | nil => rfl
  | cons n t ih =>
    rw [List.foldl_cons]
    rw [ih _ (fun n' hn' => h n' (List.mem_cons_of_mem _ hn'))]
    by_cases he : n.id = id
    · rw [delStep_keep env rids acc n (Or.inl (h n (List.mem_cons_self _ _) he))]
    · exact delStep_get_other env rids acc n id he

theorem dlStep_download_trace (env : DSvc.SEnv) (e : DSvc.REntry)
    (acc : DSvc.SyncAcc) (note : DSvc.DNote) (hmd : DSvc.isMdFile e = true)
    (hget : mGet acc.map (DSvc.entryId e) = some note)
    (hts : env.dateMs e.clientModified > env.dateMs note.updated + 2000) :
    (DSvc.dlStep env acc e).downloads = acc.downloads ++ [e.name] := by
  unfold DSvc.dlStep
  rw [if_pos hmd]
  dsimp only
  rw [hget]
  dsimp only
  rw [if_pos (by simpa using hts)]
  cases hbody : e.body with
  | none => rfl
  | some t =>
    dsimp only
    cases hparse : DSvc.parseNoteS t e.name env.nowStr with
    | none => rfl
    | some p => rfl

theorem upDecide_absent (env : DSvc.SEnv) (entries : List DSvc.REntry)
    (n : DSvc.DNote) (habs : ∀ e ∈ entries, e.name ≠ n.id ++ ".md") :
    DSvc.upDecide env entries n =
      decide (env.dateMs n.created ≥ env.now - 30000) := by
  unfold DSvc.upDecide
  rw [List.find?_eq_none.mpr (fun x hx => by simpa using habs x hx)]

theorem upDecide_present (env : DSvc.SEnv) (entries : List DSvc.REntry)
    (n : DSvc.DNote) (e : DSvc.REntry)
    (hfind : entries.find? (fun x => x.name = n.id ++ ".md") = some e) :
    DSvc.upDecide env entries n =
      decide (env.dateMs n.updated > env.dateMs e.clientModified + 2000) := by
  unfold DSvc.upDecide
  rw [hfind]

theorem delStepE_keep_rids (env : El.EEnv) (rids : List String)
    (acc : El.FS × Nat) (name : String)
    (hr : replaceFirst name ".md" ∈ rids) :
    El.delStepE env rids acc name = acc := by
  unfold El.delStepE
  by_cases h1 : strEndsWith name ".md" = true
  · rw [if_pos h1, if_pos hr]
  · rw [if_neg h1]

theorem delFoldE_get_mixed (env : El.EEnv) (rids : List String)
    (l : List String) (acc : El.FS × Nat) (nm : String)
    (h : ∀ x ∈ l, x = nm → replaceFirst x ".md" ∈ rids) :
    mGet (l.foldl (El.delStepE env rids) acc).1 nm = mGet acc.1 nm := by
  induction l generalizing acc with
  | nil => rfl
  | cons x t ih =>
    rw [List.foldl_cons]
    rw [ih _ (fun y hy => h y (List.mem_cons_of_mem _ hy))]
    by_cases he : x = nm
    · rw [delStepE_keep_rids env rids acc x (h x (List.mem_cons_self _ _) he)]
    · exact delStepE_get_other env rids acc x nm he

theorem shouldDlE_false (env : El.EEnv) (fs : El.FS) (e : El.EEntry)
    (f : El.FData) (hget : mGet fs e.name = some f)
    (h : (env.dateMs e.clientModified -
        env.dateMs (Codec.parseNoteDoc f.doc env.nowStr env.uuid).updated).natAbs
      < 2000) :
    El.shouldDownloadE env fs e = false := by
  unfold El.shouldDownloadE
  rw [hget]
  dsimp only
  rw [if_pos h]

theorem shouldDlE_true (env : El.EEnv) (fs : El.FS) (e : El.EEntry)
    (f : El.FData) (hget : mGet fs e.name = some f)
    (h1 : ¬ (env.dateMs e.clientModified -
        env.dateMs (Codec.parseNoteDoc f.doc env.nowStr env.uuid).updated).natAbs
      < 2000)
    (h2 : ¬ env.dateMs (Codec.parseNoteDoc f.doc env.nowStr env.uuid).updated >
        env.dateMs e.clientModified) :
    El.shouldDownloadE env fs e = true := by
  unfold El.shouldDownloadE
  rw [hget]
  dsimp only
  rw [if_neg h1, if_neg h2]

theorem uploadNote_match (hashFn : Codec.CoreDoc → String) (env : El.UpEnv)
    (st : El.UpState) (note : Codec.CNote) (htok : ¬ env.accessToken = "")
    (h : mGet st.noteHashes note.id =
      some (El.getContentHash hashFn note env.now)) :
    El.uploadNote hashFn env st note = (true, st, []) := by
  unfold El.uploadNote
  rw [if_neg htok]
  dsimp only
  rw [if_pos h]

theorem uploadNote_calls_mismatch (hashFn : Codec.CoreDoc → String)
    (env : El.UpEnv) (st : El.UpState) (note : Codec.CNote)
    (htok : ¬ env.accessToken = "")
    (h : ¬ mGet st.noteHashes note.id =
      some (El.getContentHash hashFn note env.now))
    (hval : env.tokenValid = true) :
    (El.uploadNote hashFn env st note).2.2 = [note.id] := by
  unfold El.uploadNote
  rw [if_neg htok]
  dsimp only
  rw [if_neg h, if_pos hval]
  by_cases h4 : env.uploadOk = true
  · rw [if_pos h4]
  · rw [if_neg h4]

theorem uploadNote_success (hashFn : Codec.CoreDoc → String) (env : El.UpEnv)
    (st : El.UpState) (note : Codec.CNote) (htok : ¬ env.accessToken = "")
    (h : ¬ mGet st.noteHashes note.id =
      some (El.getContentHash hashFn note env.now))
    (hval : env.tokenValid = true) (hok : env.uploadOk = true) :
    El.uploadNote hashFn env st note =
      (true, { noteHashes := mSet st.noteHashes note.id (El.getContentHash hashFn note env.now) }, [note.id]) := by
  unfold El.uploadNote
  rw [if_neg htok]
  dsimp only
  rw [if_neg h, if_pos hval, if_pos hok]

theorem uploadNote_other (hashFn : Codec.CoreDoc → String) (env : El.UpEnv)
    (st : El.UpState) (m : Codec.CNote) (id : String) (hne : m.id ≠ id) :
    mGet (El.uploadNote hashFn env st m).2.1.noteHashes id
      = mGet st.noteHashes id ∧
    id ∉ (El.uploadNote hashFn env st m).2.2 := by
  unfold El.uploadNote
  by_cases h1 : env.accessToken = ""
  · rw [if_pos h1]
    exact ⟨rfl, by simp⟩
  · rw [if_neg h1]
    dsimp only
    by_cases h2 : mGet st.noteHashes m.id =
        some (El.getContentHash hashFn m env.now)
    · rw [if_pos h2]
      exact ⟨rfl, by simp⟩
    · rw [if_neg h2]
      by_cases h3 : env.tokenValid = true
      · rw [if_pos h3]
        by_cases h4 : env.uploadOk = true
        · rw [if_pos h4]
          refine ⟨mGet_mSet_ne _ _ _ _ hne, ?_⟩
          simp only [List.mem_singleton]
          exact fun he => hne he.symm
        · rw [if_neg h4]
          refine ⟨rfl, ?_⟩
          simp only [List.mem_singleton]
          exact fun he => hne he.symm
      · rw [if_neg h3]
        exact ⟨rfl, by simp⟩

theorem syncStep_match (hashFn : Codec.CoreDoc → String) (env : El.UpEnv)
    (acc : El.SyncAllAcc) (note : Codec.CNote)
    (h : mGet acc.st.noteHashes note.id =
      some (El.getContentHash hashFn note env.now)) :
    El.syncStep hashFn env acc note = { acc with skipped := acc.skipped + 1 } := by
  unfold El.syncStep
  rw [if_pos h]

theorem syncStep_calls (hashFn : Codec.CoreDoc → String) (env : El.UpEnv)
    (acc : El.SyncAllAcc) (note : Codec.CNote)
    (h : ¬ mGet acc.st.noteHashes note.id =
      some (El.getContentHash hashFn note env.now)) :
    (El.syncStep hashFn env acc note).calls =
      acc.calls ++ (El.uploadNote hashFn env acc.st note).2.2 ∧
    (El.syncStep hashFn env acc note).st =
      (El.uploadNote hashFn env acc.st note).2.1 := by
  unfold El.syncStep
  rw [if_neg h]
  dsimp only
  by_cases h2 : (El.uploadNote hashFn env acc.st note).1 = true
  · rw [if_pos h2]
    exact ⟨rfl, rfl⟩
  · rw [if_neg h2]
    exact ⟨rfl, rfl⟩

theorem syncStep_other (hashFn : Codec.CoreDoc → String) (env : El.UpEnv)
    (acc : El.SyncAllAcc) (m : Codec.CNote) (id : String) (hne : m.id ≠ id) :
    mGet (El.syncStep hashFn env acc m).st.noteHashes id
      = mGet acc.st.noteHashes id ∧
    (El.syncStep hashFn env acc m).calls.count id = acc.calls.count id := by
  by_cases h1 : mGet acc.st.noteHashes m.id =
      some (El.getContentHash hashFn m env.now)
  · rw [syncStep_match hashFn env acc m h1]
    exact ⟨rfl, rfl⟩
  · have hc := syncStep_calls hashFn env acc m h1
    have ho := uploadNote_other hashFn env acc.st m id hne
    refine ⟨?_, ?_⟩
    · rw [hc.2]
      exact ho.1
    · rw [hc.1, List.count_append, List.count_eq_zero.mpr ho.2]
      exact Nat.add_zero _

theorem syncFold_other (hashFn : Codec.CoreDoc → String) (env : El.UpEnv)
    (l : List Codec.CNote) (acc : El.SyncAllAcc) (id : String)
    (h : ∀ m ∈ l, m.id ≠ id) :
    mGet (l.foldl (El.syncStep hashFn env) acc).st.noteHashes id
      = mGet acc.st.noteHashes id ∧
    (l.foldl (El.syncStep hashFn env) acc).calls.count id
      = acc.calls.count id := by
  induction l generalizing acc with
  | nil => exact ⟨rfl, rfl⟩
  | cons m t ih =>
    rw [List.foldl_cons]
    have hs := syncStep_other hashFn env acc m id (h m (List.mem_cons_self _ _))
    have hi := ih (El.syncStep hashFn env acc m)
      (fun m' hm' => h m' (List.mem_cons_of_mem _ hm'))
    exact ⟨hi.1.trans hs.1, hi.2.trans hs.2⟩

def wHashFn : Codec.CoreDoc → String := fun _ => "h"

def wUpEnv : El.UpEnv :=
  { accessToken := "tok", tokenValid := true, uploadOk := true, now := "N" }

def wCNote : Codec.CNote :=
  { id := "n1", title := "T", color := "#FFE066", content := "c"
  , created := "C", updated := "U", pinned := false, encrypted := false
  , tags := [], reminders := [] }

def wStA : El.UpState := { noteHashes := [("n1", "h")] }

def wStB : El.UpState := { noteHashes := [] }

/-- C1: with a configured access token, a note whose computed content hash
(of its full serialized form) equals the hash recorded for its id incurs no
upload call, from `uploadNote` directly and across a `syncAllNotes` pass;
a note whose hash differs incurs exactly one upload call on the pass
(given a valid token), and a successful upload records the new hash. -/
theorem upload_hash_gate (hashFn : Codec.CoreDoc → String) (env : El.UpEnv)
    (st : El.UpState) (note : Codec.CNote) (notes : List Codec.CNote)
    (htok : ¬ env.accessToken = "")
    (hmem : note ∈ notes) (hnd : (notes.map (fun n => n.id)).Nodup) :
    (mGet st.noteHashes note.id = some (El.getContentHash hashFn note env.now) →
      (El.uploadNote hashFn env st note).2.2 = [] ∧
      (El.syncAllNotes hashFn env st notes).calls.count note.id = 0) ∧
    (¬ mGet st.noteHashes note.id = some (El.getContentHash hashFn note env.now) →
      env.tokenValid = true →
      (El.uploadNote hashFn env st note).2.2 = [note.id] ∧
      (El.syncAllNotes hashFn env st notes).calls.count note.id = 1 ∧
      (env.uploadOk = true →
        mGet (El.uploadNote hashFn env st note).2.1.noteHashes note.id =
          some (El.getContentHash hashFn note env.now))) := by
  obtain ⟨s, t, rfl⟩ := List.append_of_mem hmem
  have hsplit := nodup_split_map (fun n : Codec.CNote => n.id) s t note hnd
  constructor
  · intro hmatch
    constructor
    · rw [uploadNote_match hashFn env st note htok hmatch]
    · unfold El.syncAllNotes
      rw [if_neg htok, List.foldl_append, List.foldl_cons]
      have hs1 := syncFold_other hashFn env s (El.syncInit st) note.id hsplit.1
      have hstep := syncStep_match hashFn env
        (s.foldl (El.syncStep hashFn env) (El.syncInit st)) note
        (by rw [hs1.1]; exact hmatch)
      rw [hstep]
      have hs2 := syncFold_other hashFn env t
        { s.foldl (El.syncStep hashFn env) (El.syncInit st) with
          skipped := (s.foldl (El.syncStep hashFn env) (El.syncInit st)).skipped + 1 }
        note.id hsplit.2
      exact hs2.2.trans (hs1.2.trans (by simp [El.syncInit]))
  · intro hmis hval
    have hs1 := syncFold_other hashFn env s (El.syncInit st) note.id hsplit.1
    have hmis' : ¬ mGet (s.foldl (El.syncStep hashFn env)
        (El.syncInit st)).st.noteHashes note.id =
        some (El.getContentHash hashFn note env.now) := by
      rw [hs1.1]
      exact hmis
    refine ⟨uploadNote_calls_mismatch hashFn env st note htok hmis hval, ?_, ?_⟩
    · unfold El.syncAllNotes
      rw [if_neg htok, List.foldl_append, List.foldl_cons]
      have hc := syncStep_calls hashFn env
        (s.foldl (El.syncStep hashFn env) (El.syncInit st)) note hmis'
      have hup := uploadNote_calls_mismatch hashFn env
        (s.foldl (El.syncStep hashFn env) (El.syncInit st)).st note htok hmis' hval
      have hs2 := syncFold_other hashFn env t
        (El.syncStep hashFn env
          (s.foldl (El.syncStep hashFn env) (El.syncInit st)) note)
        note.id hsplit.2
      rw [hs2.2, hc.1, hup, List.count_append, hs1.2]
      simp [El.syncInit]
    · intro hok
      rw [uploadNote_success hashFn env st note htok hmis hval hok]
      exact mGet_mSet_self _ _ _

theorem upload_hash_gate_witness :
    (El.uploadNote wHashFn wUpEnv wStA wCNote).2.2 = [] ∧
    (El.syncAllNotes wHashFn wUpEnv wStA [wCNote]).calls.count wCNote.id = 0 ∧
    (El.uploadNote wHashFn wUpEnv wStB wCNote).2.2 = [wCNote.id] ∧
    (El.syncAllNotes wHashFn wUpEnv wStB [wCNote]).calls.count wCNote.id = 1 ∧
    mGet (El.uploadNote wHashFn wUpEnv wStB wCNote).2.1.noteHashes wCNote.id =
      some (El.getContentHash wHashFn wCNote wUpEnv.now) := by
  have h1 := (upload_hash_gate wHashFn wUpEnv wStA wCNote [wCNote] (by decide)
    (by decide) (by decide)).1 (by decide)
  have h2 := (upload_hash_gate wHashFn wUpEnv wStB wCNote [wCNote] (by decide)
    (by decide) (by decide)).2 (by decide) (by decide)
  exact ⟨h1.1, h1.2, h2.1, h2.2.1, h2.2.2 (by decide)⟩

def cexDoc : Codec.CoreDoc :=
  { id := some "b", title := some "T", color := some "#FFE066"
  , created := some "OLD", updated := some "OLD", pinned := some false
  , encrypted := some false, tags := some [], reminders := some []
  , body := "x" }

def cexEnvE : El.EEnv :=
  { dateMs := fun _ => 0, now := 1000000, nowStr := "N", uuid := "u" }

def cexF : El.FData := { doc := cexDoc, ctime := 1000000 }

def cexFS : El.FS := [("b.md", cexF)]

/-- C2 counterexample: in the electron sync pass, a local note file whose
parsed `created` stamp is far older than the 30-second grace window is
nevertheless kept — and re-uploaded — when no remote counterpart exists,
because the deletion sweep ages files by filesystem ctime, not by the
note's `created` time. -/
theorem electron_grace_uses_ctime_cex :
    cexEnvE.now -
      cexEnvE.dateMs (Codec.parseNoteDoc cexF.doc cexEnvE.nowStr
        cexEnvE.uuid).created > 30000 ∧
    replaceFirst "b.md" ".md" ∉ El.eRemoteIds [] ∧
    mGet (El.elSync cexEnvE cexFS []).1 "b.md" = some cexF ∧
    "b.md" ∈ (El.elSync cexEnvE cexFS []).2.2 := by
  decide

/-- C2 (amended): in `DropboxService.syncWithRemote`, a local note with no
remote counterpart is removed and not uploaded when its `created` stamp is
older than the 30-second grace window, and kept and uploaded as new when it
is younger. In the electron `DropboxSyncManager` pass the same grace test
is applied to the file's filesystem ctime instead of the note's `created`
stamp, and a file that survives the sweep is uploaded unconditionally. -/
theorem sync_deletion_grace :
    (∀ (env : DSvc.SEnv) (localNotes : List DSvc.DNote)
        (entries : List DSvc.REntry) (note : DSvc.DNote),
      note ∈ localNotes →
      (localNotes.map (fun n => n.id)).Nodup →
      DSvc.absentRemotely env entries note.id →
      ((env.dateMs note.created < env.now - 30000 →
          note.id ∉ (DSvc.syncWithRemote env localNotes entries).notes.map
            (fun n => n.id) ∧
          note.id ∉ (DSvc.syncWithRemote env localNotes entries).uploads) ∧
       (¬ env.dateMs note.created < env.now - 30000 →
          note ∈ (DSvc.syncWithRemote env localNotes entries).notes ∧
          note.id ∈ (DSvc.syncWithRemote env localNotes entries).uploads))) ∧
    (∀ (env : El.EEnv) (fs : El.FS) (entries : List El.EEntry) (nm : String)
        (f : El.FData),
      mGet fs nm = some f →
      (fs.map (fun p => p.1)).Nodup →
      strEndsWith nm ".md" = true →
      (∀ e ∈ entries, e.name ≠ nm) →
      replaceFirst nm ".md" ∉ El.eRemoteIds entries →
      ((env.now - f.ctime > 30000 →
          mGet (El.elSync env fs entries).1 nm = none ∧
          nm ∉ (El.elSync env fs entries).2.2) ∧
       (¬ env.now - f.ctime > 30000 →
          mGet (El.elSync env fs entries).1 nm = some f ∧
          nm ∈ (El.elSync env fs entries).2.2))) := by
  constructor
  · intro env localNotes entries note hmem hnd habs
    obtain ⟨habs1, habs2, habs3⟩ := habs
    obtain ⟨s, t, rfl⟩ := List.append_of_mem hmem
    have hsplit := nodup_split_map (fun n : DSvc.DNote => n.id) s t note hnd
    have hdl : mGet (DSvc.downloadPhase env (s ++ note :: t) entries).map note.id
        = some note := by
      unfold DSvc.downloadPhase
      rw [dlFold_map_get env entries _ note.id
        (fun e he t' p hb hp => habs3 e he t' p hb hp)]
      exact initFold_get_mem s t note hnd
    have hWF2 : ∀ p ∈ (DSvc.deletePhase env (s ++ note :: t) entries).1,
        p.2.id = p.1 := by
      unfold DSvc.deletePhase DSvc.downloadPhase
      apply WF_delFold
      apply WF_dlFold
      apply WF_initFold
      intro q hq
      exact absurd hq (List.not_mem_nil q)
    have hND2 : ((DSvc.deletePhase env (s ++ note :: t) entries).1.map
        (fun p => p.1)).Nodup := by
      unfold DSvc.deletePhase DSvc.downloadPhase
      apply keysND_delFold
      apply keysND_dlFold
      apply keysND_initFold
      simp
    constructor
    · intro hold
      have hget2 : mGet (DSvc.deletePhase env (s ++ note :: t) entries).1 note.id
          = none := by
        unfold DSvc.deletePhase
        rw [List.foldl_append, List.foldl_cons]
        rw [delStep_drop env _ _ note habs2 hold]
        apply delFold_none
        exact mGet_mDel_self _ _
      exact ⟨id_not_mem_vals _ note.id hWF2 hget2,
        id_not_mem_uploads_none _ _ note.id hWF2 hget2⟩
    · intro hyoung
      have hacc1 : mGet ((s.foldl (DSvc.delStep env (DSvc.remoteIds entries))
          ((DSvc.downloadPhase env (s ++ note :: t) entries).map,
           (DSvc.downloadPhase env (s ++ note :: t) entries).synced)).1) note.id
          = some note := by
        rw [delFold_get_other env _ s _ note.id hsplit.1]
        exact hdl
      have hget2 : mGet (DSvc.deletePhase env (s ++ note :: t) entries).1 note.id
          = some note := by
        unfold DSvc.deletePhase
        rw [List.foldl_append, List.foldl_cons]
        rw [delStep_keep env _ _ note (Or.inr hyoung)]
        rw [delFold_get_other env _ t _ note.id hsplit.2]
        exact hacc1
      have hup : DSvc.upDecide env entries note = true := by
        rw [upDecide_absent env entries note habs1]
        exact decide_eq_true (by omega)
      exact ⟨vals_mem_of_mGet _ note.id note hget2,
        id_mem_uploads _ (DSvc.upDecide env entries) note.id note hWF2 hget2 hup⟩
  · intro env fs entries nm f hget hnd hmd hname hrid
    have hfs1 : mGet (El.dlPhaseE env fs entries).1 nm = some f := by
      unfold El.dlPhaseE
      rw [dlFoldE_fs_get env entries (fs, [], 0) nm hname]
      exact hget
    have hND1 : ((El.dlPhaseE env fs entries).1.map (fun p => p.1)).Nodup := by
      unfold El.dlPhaseE
      exact keysND_dlFoldE env entries (fs, [], 0) hnd
    have hnm_names : nm ∈ (El.dlPhaseE env fs entries).1.map (fun p => p.1) :=
      List.mem_map.mpr ⟨(nm, f), mGet_some_mem _ _ _ hfs1, rfl⟩
    obtain ⟨s, t, hst⟩ := List.append_of_mem hnm_names
    have hsp := nodup_split_ne s t nm (by rw [← hst]; exact hND1)
    have hacc1 : mGet ((s.foldl (El.delStepE env (El.eRemoteIds entries))
        ((El.dlPhaseE env fs entries).1, 0)).1) nm = some f := by
      rw [delFoldE_get_other env _ s _ nm hsp.1]
      exact hfs1
    constructor
    · intro hage
      have hdel : mGet (El.delPhaseE env fs entries).1 nm = none := by
        unfold El.delPhaseE
        rw [hst, List.foldl_append, List.foldl_cons]
        rw [delStepE_drop env _ _ nm f hmd hacc1 hrid hage]
        apply delFoldE_none
        exact mGet_mDel_self _ _
      refine ⟨hdel, ?_⟩
      show nm ∉ El.uploadBatch (El.delPhaseE env fs entries).1
      rw [mem_uploadBatch_iff]
      intro hup
      rw [mGet_eq_none_iff] at hdel
      exact hdel hup.1
    · intro hage
      have hkeep : mGet (El.delPhaseE env fs entries).1 nm = some f := by
        unfold El.delPhaseE
        rw [hst, List.foldl_append, List.foldl_cons]
        rw [delStepE_keep env _ _ nm f hacc1 (Or.inr hage)]
        rw [delFoldE_get_other env _ t _ nm hsp.2]
        exact hacc1
      refine ⟨hkeep, ?_⟩
      show nm ∈ El.uploadBatch (El.delPhaseE env fs entries).1
      rw [mem_uploadBatch_iff]
      exact ⟨List.mem_map.mpr ⟨(nm, f), mGet_some_mem _ _ _ hkeep, rfl⟩, hmd⟩

def wSEnv : DSvc.SEnv :=
  { dateMs := fun _ => 0, now := 10000, nowStr := "N", uploadOk := fun _ => true }

def wDNote : DSvc.DNote :=
  { id := "n0", title := "T", content := "c", created := "C", updated := "U"
  , color := "#FFE066", pinned := false, tags := [], widgetId := none }

theorem sync_deletion_grace_witness :
    wDNote ∈ (DSvc.syncWithRemote wSEnv [wDNote] []).notes ∧
    wDNote.id ∈ (DSvc.syncWithRemote wSEnv [wDNote] []).uploads ∧
    mGet (El.elSync cexEnvE cexFS []).1 "b.md" = some cexF ∧
    "b.md" ∈ (El.elSync cexEnvE cexFS []).2.2 := by
  have h1 := ((sync_deletion_grace.1 wSEnv [wDNote] [] wDNote
    (by decide) (by decide)
    ⟨fun e he => absurd he (List.not_mem_nil e), by decide,
     fun e he => absurd he (List.not_mem_nil e)⟩).2) (by decide)
  have h2 := ((sync_deletion_grace.2 cexEnvE cexFS [] "b.md" cexF (by decide)
    (by decide) (by decide) (fun e he => absurd he (List.not_mem_nil e))
    (by decide)).2) (by decide)
  exact ⟨h1.1, h1.2, h2.1, h2.2⟩

def cexEnvE3 : El.EEnv :=
  { dateMs := fun _ => 0, now := 100, nowStr := "N", uuid := "u" }

def cexDoc3 : Codec.CoreDoc :=
  { id := some "a", title := some "T", color := some "#FFE066"
  , created := some "C", updated := some "U", pinned := some false
  , encrypted := some false, tags := some [], reminders := some []
  , body := "x" }

def cexF3 : El.FData := { doc := cexDoc3, ctime := 100 }

def cexFS3 : El.FS := [("a.md", cexF3)]

def cexEntry3 : El.EEntry :=
  { isFile := true, name := "a.md", clientModified := "M", body := some cexDoc3 }

/-- C3 counterexample: in the electron pass, a note present both locally
and remotely whose remote and local timestamps agree (skew 0, well inside
the 2-second tolerance) is indeed not downloaded and left unchanged — but
it is still uploaded, because `uploadToDropbox` posts every local `.md`
file unconditionally. -/
theorem electron_uploads_unchanged_cex :
    (cexEnvE3.dateMs cexEntry3.clientModified -
      cexEnvE3.dateMs (Codec.parseNoteDoc cexF3.doc cexEnvE3.nowStr
        cexEnvE3.uuid).updated).natAbs < 2000 ∧
    "a.md" ∉ (El.elSync cexEnvE3 cexFS3 [cexEntry3]).2.1 ∧
    mGet (El.elSync cexEnvE3 cexFS3 [cexEntry3]).1 "a.md" = some cexF3 ∧
    "a.md" ∈ (El.elSync cexEnvE3 cexFS3 [cexEntry3]).2.2 := by
  decide

theorem dlStepE_download_trace (env : El.EEnv) (acc : El.FS × List String × Nat)
    (e : El.EEntry) (hmd : El.eIsMd e = true)
    (hdl : El.shouldDownloadE env acc.1 e = true) :
    (El.dlStepE env acc e).2.1 = acc.2.1 ++ [e.name] := by
  unfold El.dlStepE
  rw [if_pos hmd, if_pos hdl]
  cases hbody : e.body with
  | some doc => rfl
  | none => rfl

/-- C3 (amended): for a note present both locally and remotely. In
`DropboxService.syncWithRemote`: a remote entry newer than the local
`updated` stamp by more than 2 seconds is downloaded and overwrites the
local copy; when the two stamps are within 2 seconds of each other in both
directions the pass neither downloads nor uploads the note and keeps it
unchanged. In the electron pass the download half behaves the same way
(with the 2-second tolerance taken as an absolute skew), but the note is
uploaded unconditionally even when the timestamps agree. -/
theorem sync_timestamp_skew_rule :
    (∀ (env : DSvc.SEnv) (ls lt : List DSvc.DNote) (note : DSvc.DNote)
        (pre post : List DSvc.REntry) (e : DSvc.REntry),
      ((ls ++ note :: lt).map (fun n => n.id)).Nodup →
      e.isFile = true →
      strEndsWith e.name ".md" = true →
      DSvc.entryId e = note.id →
      e.name = note.id ++ ".md" →
      (∀ x ∈ pre ++ e :: post, x.name = note.id ++ ".md" → x = e) →
      (∀ x ∈ pre ++ post, x.name ≠ e.name) →
      (∀ x ∈ pre ++ post, ∀ t p, x.body = some t →
        DSvc.parseNoteS t x.name env.nowStr = some p → p.id ≠ note.id) →
      ((¬ env.dateMs e.clientModified > env.dateMs note.updated + 2000 →
        ¬ env.dateMs note.updated > env.dateMs e.clientModified + 2000 →
        e.name ∉
          (DSvc.syncWithRemote env (ls ++ note :: lt) (pre ++ e :: post)).downloads ∧
        note.id ∉
          (DSvc.syncWithRemote env (ls ++ note :: lt) (pre ++ e :: post)).uploads ∧
        (DSvc.syncWithRemote env (ls ++ note :: lt) (pre ++ e :: post)).notes.find?
          (fun x => x.id = note.id) = some note) ∧
       (env.dateMs e.clientModified > env.dateMs note.updated + 2000 →
        e.name ∈
          (DSvc.syncWithRemote env (ls ++ note :: lt) (pre ++ e :: post)).downloads ∧
        (∀ tx px, e.body = some tx →
          DSvc.parseNoteS tx e.name env.nowStr = some px → px.id = note.id →
          (DSvc.syncWithRemote env (ls ++ note :: lt) (pre ++ e :: post)).notes.find?
            (fun x => x.id = note.id) =
            some (DSvc.widgetTransfer (some note) px))))) ∧
    (∀ (env : El.EEnv) (fs : El.FS) (pre post : List El.EEntry) (e : El.EEntry)
        (nm : String) (f : El.FData),
      mGet fs nm = some f →
      e.isFile = true →
      e.name = nm →
      strEndsWith nm ".md" = true →
      (∀ x ∈ pre ++ post, x.name ≠ nm) →
      (((env.dateMs e.clientModified -
            env.dateMs (Codec.parseNoteDoc f.doc env.nowStr env.uuid).updated).natAbs
          < 2000 →
        nm ∉ (El.elSync env fs (pre ++ e :: post)).2.1 ∧
        mGet (El.elSync env fs (pre ++ e :: post)).1 nm = some f ∧
        nm ∈ (El.elSync env fs (pre ++ e :: post)).2.2) ∧
       (env.dateMs e.clientModified >
          env.dateMs (Codec.parseNoteDoc f.doc env.nowStr env.uuid).updated + 2000 →
        nm ∈ (El.elSync env fs (pre ++ e :: post)).2.1 ∧
        (∀ doc, e.body = some doc →
          mGet (El.elSync env fs (pre ++ e :: post)).1 nm =
            some { doc := doc, ctime := env.now } ∧
          nm ∈ (El.elSync env fs (pre ++ e :: post)).2.2)))) := by
  constructor
  · intro env ls lt note pre post e hnd hfile hends heid hename huniq hnames hcoll
    have hmd' : DSvc.isMdFile e = true := by
      unfold DSvc.isMdFile
      rw [hfile, hends]
      rfl
    have hemem : e ∈ pre ++ e :: post :=
      List.mem_append_right _ (List.mem_cons_self _ _)
    have hidr : note.id ∈ DSvc.remoteIds (pre ++ e :: post) :=
      List.mem_map.mpr ⟨e, List.mem_filter.mpr ⟨hemem, hmd'⟩, heid⟩
    have hm0 : mGet (DSvc.initialMap (ls ++ note :: lt)) note.id = some note := by
      unfold DSvc.initialMap
      exact initFold_get_mem ls lt note hnd
    have hpre : mGet (pre.foldl (DSvc.dlStep env)
        { map := DSvc.initialMap (ls ++ note :: lt), downloads := []
        , synced := 0 }).map note.id = some note := by
      rw [dlFold_map_get env pre _ note.id
        (fun x hx => hcoll x (List.mem_append_left _ hx))]
      exact hm0
    have hget' : mGet (pre.foldl (DSvc.dlStep env)
        { map := DSvc.initialMap (ls ++ note :: lt), downloads := []
        , synced := 0 }).map (DSvc.entryId e) = some note := by
      rw [heid]
      exact hpre
    have hphase : DSvc.downloadPhase env (ls ++ note :: lt) (pre ++ e :: post) =
        post.foldl (DSvc.dlStep env)
          (DSvc.dlStep env (pre.foldl (DSvc.dlStep env)
            { map := DSvc.initialMap (ls ++ note :: lt), downloads := []
            , synced := 0 }) e) := by
      unfold DSvc.downloadPhase
      rw [List.foldl_append, List.foldl_cons]
    have hWF2 : ∀ p ∈
        (DSvc.deletePhase env (ls ++ note :: lt) (pre ++ e :: post)).1,
        p.2.id = p.1 := by
      unfold DSvc.deletePhase DSvc.downloadPhase
      apply WF_delFold
      apply WF_dlFold
      apply WF_initFold
      intro q hq
      exact absurd hq (List.not_mem_nil q)
    have hND2 : ((DSvc.deletePhase env (ls ++ note :: lt) (pre ++ e :: post)).1.map
        (fun p => p.1)).Nodup := by
      unfold DSvc.deletePhase DSvc.downloadPhase
      apply keysND_delFold
      apply keysND_dlFold
      apply keysND_initFold
      simp
    have hkeepAll : ∀ g,
        mGet (DSvc.downloadPhase env (ls ++ note :: lt) (pre ++ e :: post)).map
          note.id = some g →
        mGet (DSvc.deletePhase env (ls ++ note :: lt) (pre ++ e :: post)).1
          note.id = some g := by
      intro g hg
      unfold DSvc.deletePhase
      rw [delFold_get_keep env _ _ _ note.id (fun n hn he => by rw [he]; exact hidr)]
      exact hg
    constructor
    · intro hts1 hts2
      have hskip : DSvc.dlStep env (pre.foldl (DSvc.dlStep env)
          { map := DSvc.initialMap (ls ++ note :: lt), downloads := []
          , synced := 0 }) e =
          pre.foldl (DSvc.dlStep env)
            { map := DSvc.initialMap (ls ++ note :: lt), downloads := []
            , synced := 0 } :=
        dlStep_skip env e _ note hmd' hget' hts1
      have hm1 : mGet (DSvc.downloadPhase env (ls ++ note :: lt)
          (pre ++ e :: post)).map note.id = some note := by
        rw [hphase, hskip]
        rw [dlFold_map_get env post _ note.id
          (fun x hx => hcoll x (List.mem_append_right _ hx))]
        exact hpre
      have hget2 := hkeepAll note hm1
      refine ⟨?_, ?_, ?_⟩
      · show e.name ∉ (DSvc.downloadPhase env (ls ++ note :: lt)
          (pre ++ e :: post)).downloads
        rw [hphase, hskip]
        rw [dlFold_downloads_mem env post _ e.name
          (fun x hx => hnames x (List.mem_append_right _ hx))]
        rw [dlFold_downloads_mem env pre _ e.name
          (fun x hx => hnames x (List.mem_append_left _ hx))]
        simp
      · have hfind := find?_name_unique (pre ++ e :: post) e (note.id ++ ".md")
          hemem hename huniq
        have hupf : DSvc.upDecide env (pre ++ e :: post) note = false := by
          rw [upDecide_present env _ note e hfind]
          exact decide_eq_false hts2
        exact id_not_mem_uploads_false _ _ note.id note hWF2 hND2 hget2 hupf
      · exact vals_find_of_mGet _ note.id note hWF2 hget2
    · intro hts
      refine ⟨?_, ?_⟩
      · show e.name ∈ (DSvc.downloadPhase env (ls ++ note :: lt)
          (pre ++ e :: post)).downloads
        rw [hphase]
        rw [dlFold_downloads_mem env post _ e.name
          (fun x hx => hnames x (List.mem_append_right _ hx))]
        rw [dlStep_download_trace env e _ note hmd' hget' hts]
        exact List.mem_append_right _ (List.mem_cons_self _ _)
      · intro tx px hbody hparse hpid
        have hstep := dlStep_download env e _ note tx px hmd' hget' hts hbody hparse
        have hm1 : mGet (DSvc.downloadPhase env (ls ++ note :: lt)
            (pre ++ e :: post)).map note.id =
            some (DSvc.widgetTransfer (some note) px) := by
          rw [hphase, hstep]
          rw [dlFold_map_get env post _ note.id
            (fun x hx => hcoll x (List.mem_append_right _ hx))]
          dsimp only
          rw [show (DSvc.widgetTransfer (some note) px).id = note.id from
            (widgetTransfer_id _ _).trans hpid]
          exact mGet_mSet_self _ _ _
        exact vals_find_of_mGet _ note.id _ hWF2 (hkeepAll _ hm1)
  · intro env fs pre post e nm f hget hfile hename hends hnames
    have hemd : El.eIsMd e = true := by
      unfold El.eIsMd
      rw [hfile, hename, hends]
      rfl
    have hemem : e ∈ pre ++ e :: post :=
      List.mem_append_right _ (List.mem_cons_self _ _)
    have hsrid : replaceFirst nm ".md" ∈ El.eRemoteIds (pre ++ e :: post) := by
      refine List.mem_map.mpr ⟨e, List.mem_filter.mpr ⟨hemem, hemd⟩, ?_⟩
      unfold El.eEntryId
      rw [hename]
    have hpre : mGet (pre.foldl (El.dlStepE env) (fs, [], 0)).1 nm = some f := by
      rw [dlFoldE_fs_get env pre (fs, [], 0) nm
        (fun x hx => hnames x (List.mem_append_left _ hx))]
      exact hget
    have hpre' : mGet (pre.foldl (El.dlStepE env) (fs, [], 0)).1 e.name
        = some f := by
      rw [hename]
      exact hpre
    have hphase : El.dlPhaseE env fs (pre ++ e :: post) =
        post.foldl (El.dlStepE env)
          (El.dlStepE env (pre.foldl (El.dlStepE env) (fs, [], 0)) e) := by
      unfold El.dlPhaseE
      rw [List.foldl_append, List.foldl_cons]
    have hdelkeep : ∀ g : El.FData,
        mGet (El.dlPhaseE env fs (pre ++ e :: post)).1 nm = some g →
        mGet (El.delPhaseE env fs (pre ++ e :: post)).1 nm = some g := by
      intro g hg
      unfold El.delPhaseE
      rw [delFoldE_get_mixed env _ _ _ nm
        (fun x hx hxe => by rw [hxe]; exact hsrid)]
      exact hg
    have hupmem : ∀ g : El.FData,
        mGet (El.delPhaseE env fs (pre ++ e :: post)).1 nm = some g →
        nm ∈ El.uploadBatch (El.delPhaseE env fs (pre ++ e :: post)).1 := by
      intro g hg
      rw [mem_uploadBatch_iff]
      exact ⟨List.mem_map.mpr ⟨(nm, g), mGet_some_mem _ _ _ hg, rfl⟩, hends⟩
    constructor
    · intro hcl
      have hskip : El.dlStepE env (pre.foldl (El.dlStepE env) (fs, [], 0)) e =
          pre.foldl (El.dlStepE env) (fs, [], 0) :=
        dlStepE_skip env _ e (shouldDlE_false env _ e f hpre' hcl)
      have hm1 : mGet (El.dlPhaseE env fs (pre ++ e :: post)).1 nm = some f := by
        rw [hphase, hskip]
        rw [dlFoldE_fs_get env post _ nm
          (fun x hx => hnames x (List.mem_append_right _ hx))]
        exact hpre
      refine ⟨?_, hdelkeep f hm1, hupmem f (hdelkeep f hm1)⟩
      show nm ∉ (El.dlPhaseE env fs (pre ++ e :: post)).2.1
      rw [hphase, hskip]
      rw [dlFoldE_downloads_mem env post _ nm
        (fun x hx => hnames x (List.mem_append_right _ hx))]
      rw [dlFoldE_downloads_mem env pre _ nm
        (fun x hx => hnames x (List.mem_append_left _ hx))]
      simp
    · intro hts
      have hsd : El.shouldDownloadE env
          (pre.foldl (El.dlStepE env) (fs, [], 0)).1 e = true :=
        shouldDlE_true env _ e f hpre' (by omega) (by omega)
      constructor
      · show nm ∈ (El.dlPhaseE env fs (pre ++ e :: post)).2.1
        rw [hphase]
        rw [dlFoldE_downloads_mem env post _ nm
          (fun x hx => hnames x (List.mem_append_right _ hx))]
        rw [dlStepE_download_trace env _ e hemd hsd]
        rw [hename]
        exact List.mem_append_right _ (List.mem_cons_self _ _)
      · intro doc hbody
        have hm1 : mGet (El.dlPhaseE env fs (pre ++ e :: post)).1 nm =
            some { doc := doc, ctime := env.now } := by
          rw [hphase, dlStepE_download env _ e doc hemd hsd hbody]
          rw [dlFoldE_fs_get env post _ nm
            (fun x hx => hnames x (List.mem_append_right _ hx))]
          dsimp only
          rw [hename]
          exact mGet_mSet_self _ _ _
        exact ⟨hdelkeep _ hm1, hupmem _ (hdelkeep _ hm1)⟩

def wSEnv3 : DSvc.SEnv :=
  { dateMs := fun _ => 0, now := 100, nowStr := "N", uploadOk := fun _ => true }

def wDNote3 : DSvc.DNote :=
  { id := "n3", title := "T", content := "c", created := "C", updated := "U"
  , color := "#FFE066", pinned := false, tags := [], widgetId := none }

def wREntry3 : DSvc.REntry :=
  { isFile := true, name := "n3.md", clientModified := "M", body := none }

theorem sync_timestamp_skew_rule_witness :
    wREntry3.name ∉
      (DSvc.syncWithRemote wSEnv3 [wDNote3] [wREntry3]).downloads ∧
    wDNote3.id ∉ (DSvc.syncWithRemote wSEnv3 [wDNote3] [wREntry3]).uploads ∧
    (DSvc.syncWithRemote wSEnv3 [wDNote3] [wREntry3]).notes.find?
      (fun x => x.id = wDNote3.id) = some wDNote3 ∧
    "a.md" ∉ (El.elSync cexEnvE3 cexFS3 [cexEntry3]).2.1 ∧
    mGet (El.elSync cexEnvE3 cexFS3 [cexEntry3]).1 "a.md" = some cexF3 ∧
    "a.md" ∈ (El.elSync cexEnvE3 cexFS3 [cexEntry3]).2.2 := by
  have h1 := (sync_timestamp_skew_rule.1 wSEnv3 [] [] wDNote3 [] [] wREntry3
    (by decide) (by decide) (by decide) (by decide) (by decide) (by decide)
    (by decide) (fun x hx => absurd hx (List.not_mem_nil x))).1
    (by decide) (by decide)
  have h2 := (sync_timestamp_skew_rule.2 cexEnvE3 cexFS3 [] [] cexEntry3
    "a.md" cexF3 (by decide) (by decide) (by decide) (by decide)
    (by decide)).1 (by decide)
  exact ⟨h1.1, h1.2.1, h1.2.2, h2.1, h2.2.1, h2.2.2⟩
